import Mathlib

/-!
Verification development for the RhythmRecognition library.

The Python source is shallowly embedded over exact rationals: numpy arrays
become lists of rationals, Python dicts become key-sorted association lists,
and each `while` loop becomes a fuel-bounded structural recursion (the fuel is
always instantiated so that exhaustion is unreachable; where a loop can run
forever, the fuel-indexed family makes the divergence provable).  Fallible
code (out-of-range indexing, division by zero) is modelled with `Option`.
-/

namespace RhythmRec

/-- Python `int(x)` applied to a rational: truncation toward zero. -/
def pyInt (q : ℚ) : ℤ := if q < 0 then ⌈q⌉ else ⌊q⌋

/-- Body of the `while curr < duration` loop of `get_click_times_sec`
(click_track.py): each pass appends `curr + interval`.  Fuel-bounded. -/
def clickTimesAux (interval dur : ℚ) : ℕ → ℚ → List ℚ
  | 0, _ => []
  | fuel + 1, curr =>
      if curr < dur then (curr + interval) :: clickTimesAux interval dur fuel (curr + interval)
      else []

/-- Embedding of `get_click_times_sec(tempo, duration)` (click_track.py):
click times start at 0 and advance by `60/tempo` until `duration` is passed. -/
def getClickTimesSec (tempo : ℕ) (dur : ℚ) (fuel : ℕ) : List ℚ :=
  0 :: clickTimesAux (60 / (tempo : ℚ)) dur fuel 0

/-- Embedding of the inner `while shifted_click_time_ms > peak_ms` scan shared by
`ScoreBeatTracker._get_score` (score.py) and `PenaltyBeatTracker._get_score`
(penalty.py).  State is `(peak_index, diff, peak_ms)`; the loop advances the
index while the click is still ahead of the current peak, tracking the distance
to the last passed peak, and breaks (leaving `peak_ms` stale) when the index
runs off the end of `peak_times`. -/
def scanPeaksWhile (peaks : List ℚ) (shifted : ℚ) : ℕ → ℕ → ℚ → ℚ → ℕ × ℚ × ℚ
  | 0, i, diff, peakMs => (i, diff, peakMs)
  | fuel + 1, i, diff, peakMs =>
      if shifted > peakMs then
        let diffNew := |shifted - peakMs|
        if i + 1 ≥ peaks.length then (i + 1, diffNew, peakMs)
        else scanPeaksWhile peaks shifted fuel (i + 1) diffNew (peaks.getD (i + 1) 0 * 1000)
      else (i, diff, peakMs)

/-- Embedding of the per-click body shared by both `_get_score` overrides: find
the final distance between the shifted click and its matched onset candidate,
comparing the last passed peak with the first peak at or after the click and
rewinding the index by one when the earlier peak was at least as close.
Returns the updated peak index and the distance (in milliseconds). -/
def clickStep (peaks : List ℚ) (shiftMs : ℤ) (i : ℕ) (click : ℚ) : ℕ × ℚ :=
  let shifted := click * 1000 + (shiftMs : ℚ)
  let peakMs := peaks.getD i 0 * 1000
  let diff := |shifted - peakMs|
  let res := scanPeaksWhile peaks shifted peaks.length i diff peakMs
  if res.2.1 > |shifted - res.2.2| then (res.1, |shifted - res.2.2|)
  else (if res.1 > 0 then res.1 - 1 else res.1, res.2.1)

/-- Embedding of `ScoreBeatTracker._get_score(shift_ms)` (score.py): one point
per click whose matched-candidate distance is at most `tolerance`. -/
def scoreBinary (peaks clicks : List ℚ) (tol : ℚ) (shiftMs : ℤ) : ℚ :=
  (clicks.foldl
    (fun st click =>
      let r := clickStep peaks shiftMs st.1 click
      (r.1, if r.2 ≤ tol then st.2 + 1 else st.2))
    ((0, 0) : ℕ × ℚ)).2

/-- Embedding of `PenaltyBeatTracker._penalty(distance)` (penalty.py).  Note
that the caller passes `distance` in milliseconds while `self.period` is in
seconds; the formula below is the literal source code. -/
def penalty (period d : ℚ) : ℚ :=
  if d ≥ period / 2 then 1 else d ^ 2 * (4 / period ^ 2)

/-- Embedding of `PenaltyBeatTracker._get_score(shift_ms)` (penalty.py):
accumulate `1 - penalty(distance)` over all clicks, where `distance` is the
millisecond distance computed by the forward scan. -/
def scorePenalty (peaks clicks : List ℚ) (period : ℚ) (shiftMs : ℤ) : ℚ :=
  (clicks.foldl
    (fun st click =>
      let r := clickStep peaks shiftMs st.1 click
      (r.1, st.2 + (1 - penalty period r.2)))
    ((0, 0) : ℕ × ℚ)).2

/-- Number of candidate shifts tried by `BeatTracker._try_all_time_shifts`
(beat_tracker.py): `int(beat_len_ms)` with `beat_len_ms = 60 / tempo * 1000`. -/
def numShifts (tempo : ℕ) : ℕ :=
  (pyInt (60 / (tempo : ℚ) * 1000)).toNat

/-- Embedding of `BeatTracker._try_all_time_shifts` (beat_tracker.py): the
scores dict, in insertion order, maps each shift `i` in
`range(int(beat_len_ms))` to `_get_score(i)`. -/
def tryAllTimeShifts (score : ℤ → ℚ) (tempo : ℕ) : List (ℕ × ℚ) :=
  (List.range (numShifts tempo)).map (fun i => (i, score (i : ℤ)))

/-- Embedding of the selection loop of `BeatTracker.get_time_shift`
(beat_tracker.py): starting from `max_score = 0`, `max_score_shift_ms = 0`,
a shift replaces the incumbent only when its score is strictly greater. -/
def selectBest (l : List (ℕ × ℚ)) : ℕ × ℚ :=
  l.foldl (fun best p => if p.2 > best.2 then p else best) ((0, 0) : ℕ × ℚ)

/-- The millisecond shift returned by `BeatTracker.get_time_shift`. -/
def getTimeShiftMs (score : ℤ → ℚ) (tempo : ℕ) : ℕ :=
  (selectBest (tryAllTimeShifts score tempo)).1

/-- Embedding of the returned value of `BeatTracker.get_time_shift`: the
winning millisecond shift divided by 1000 (seconds). -/
def getTimeShift (score : ℤ → ℚ) (tempo : ℕ) : ℚ :=
  (getTimeShiftMs score tempo : ℚ) / 1000

/-- Modelled from the spec: the penalty-mode scoring rule as the specification
states it, with the distance to the nearest onset candidate and the beat
period measured in the same time unit (milliseconds here): the total score is
the sum over all click times of `1 - penalty(d)` with
`penalty(d) = 1` for `d ≥ period/2` and `d^2 * 4 / period^2` otherwise. -/
def specNearestDistMs (peaks : List ℚ) (tMs : ℚ) : ℚ :=
  peaks.foldl (fun acc p => min acc |tMs - p * 1000|) (|tMs - (peaks.headD 0) * 1000|)

/-- Modelled from the spec: total penalty-mode score with consistent units. -/
def specPenaltyScore (peaks clicks : List ℚ) (periodMs : ℚ) (shiftMs : ℤ) : ℚ :=
  clicks.foldl
    (fun acc click => acc + (1 - penalty periodMs (specNearestDistMs peaks (click * 1000 + (shiftMs : ℚ)))))
    0

/-- A shift is best when it lies in the search space and its score is at least
the score of every shift in the search space. -/
def IsBestShift (score : ℤ → ℚ) (tempo : ℕ) (t : ℕ) : Prop :=
  t < numShifts tempo ∧ ∀ j < numShifts tempo, score (j : ℤ) ≤ score (t : ℤ)

lemma scanPeaksWhile_diff_nonneg (peaks : List ℚ) (shifted : ℚ) :
    ∀ (fuel i : ℕ) (diff peakMs : ℚ), 0 ≤ diff →
      0 ≤ (scanPeaksWhile peaks shifted fuel i diff peakMs).2.1 := by
  intro fuel
  induction fuel with
  | zero => intro i diff peakMs h; exact h
  | succ n ih =>
      intro i diff peakMs h
      simp only [scanPeaksWhile]
      split
      · split
        · exact abs_nonneg _
        · exact ih _ _ _ (abs_nonneg _)
      · exact h

lemma clickStep_snd_nonneg (peaks : List ℚ) (shiftMs : ℤ) (i : ℕ) (click : ℚ) :
    0 ≤ (clickStep peaks shiftMs i click).2 := by
  simp only [clickStep]
  split
  · exact abs_nonneg _
  · exact scanPeaksWhile_diff_nonneg _ _ _ _ _ _ (abs_nonneg _)

lemma penalty_nonneg (period d : ℚ) : 0 ≤ penalty period d := by
  simp only [penalty]
  split
  · norm_num
  · positivity

lemma penalty_le_one (period d : ℚ) (hd : 0 ≤ d) : penalty period d ≤ 1 := by
  simp only [penalty]
  split
  · exact le_refl 1
  · rename_i h
    push_neg at h
    have hper : 0 < period := by linarith
    have hsq : 0 < period ^ 2 := by positivity
    rw [mul_comm, div_mul_eq_mul_div, div_le_one hsq]
    nlinarith

lemma scoreBinary_nonneg (peaks clicks : List ℚ) (tol : ℚ) (shiftMs : ℤ) :
    0 ≤ scoreBinary peaks clicks tol shiftMs := by
  simp only [scoreBinary]
  have main : ∀ (l : List ℚ) (st : ℕ × ℚ), 0 ≤ st.2 →
      0 ≤ (l.foldl (fun st click =>
        let r := clickStep peaks shiftMs st.1 click
        (r.1, if r.2 ≤ tol then st.2 + 1 else st.2)) st).2 := by
    intro l
    induction l with
    | nil => intro st h; exact h
    | cons c rest ih =>
        intro st h
        apply ih
        simp only
        split
        · linarith
        · exact h
  exact main clicks (0, 0) (le_refl 0)

lemma scorePenalty_nonneg (peaks clicks : List ℚ) (period : ℚ) (shiftMs : ℤ) :
    0 ≤ scorePenalty peaks clicks period shiftMs := by
  simp only [scorePenalty]
  have main : ∀ (l : List ℚ) (st : ℕ × ℚ), 0 ≤ st.2 →
      0 ≤ (l.foldl (fun st click =>
        let r := clickStep peaks shiftMs st.1 click
        (r.1, st.2 + (1 - penalty period r.2))) st).2 := by
    intro l
    induction l with
    | nil => intro st h; exact h
    | cons c rest ih =>
        intro st h
        apply ih
        simp only
        have hpen := penalty_le_one period _ (clickStep_snd_nonneg peaks shiftMs st.1 c)
        linarith
  exact main clicks (0, 0) (le_refl 0)

lemma selectBest_range_spec (f : ℕ → ℚ) (hf : ∀ j, 0 ≤ f j) :
    ∀ K, 1 ≤ K →
      (selectBest ((List.range K).map (fun i => (i, f i)))).1 < K ∧
      (selectBest ((List.range K).map (fun i => (i, f i)))).2
        = f (selectBest ((List.range K).map (fun i => (i, f i)))).1 ∧
      (∀ j < K, f j ≤ (selectBest ((List.range K).map (fun i => (i, f i)))).2) ∧
      (∀ j < (selectBest ((List.range K).map (fun i => (i, f i)))).1,
        f j < (selectBest ((List.range K).map (fun i => (i, f i)))).2) := by
  intro K
  induction K with
  | zero => intro h; omega
  | succ n ih =>
      intro _
      by_cases hn : 1 ≤ n
      · obtain ⟨ih1, ih2, ih3, ih4⟩ := ih hn
        have hsplit : selectBest ((List.range (n + 1)).map (fun i => (i, f i)))
            = if f n > (selectBest ((List.range n).map (fun i => (i, f i)))).2
              then (n, f n)
              else selectBest ((List.range n).map (fun i => (i, f i))) := by
          simp only [selectBest, List.range_succ, List.map_append, List.foldl_append,
            List.map_cons, List.map_nil, List.foldl_cons, List.foldl_nil]
        set b := selectBest ((List.range n).map (fun i => (i, f i))) with hb
        rw [hsplit]
        by_cases hcase : f n > b.2
        · rw [if_pos hcase]
          refine ⟨Nat.lt_succ_self n, rfl, ?_, ?_⟩
          · intro j hj
            rcases Nat.lt_succ_iff_lt_or_eq.mp hj with hj1 | hj2
            · exact le_of_lt (lt_of_le_of_lt (ih3 j hj1) hcase)
            · subst hj2; exact le_refl _
          · intro j hj
            exact lt_of_le_of_lt (ih3 j hj) hcase
        · rw [if_neg hcase]
          refine ⟨Nat.lt_succ_of_lt ih1, ih2, ?_, ih4⟩
          intro j hj
          rcases Nat.lt_succ_iff_lt_or_eq.mp hj with hj1 | hj2
          · exact ih3 j hj1
          · subst hj2; exact le_of_not_lt hcase
      · have hn0 : n = 0 := by omega
        subst hn0
        have hsplit : selectBest ((List.range 1).map (fun i => (i, f i)))
            = if f 0 > 0 then ((0, f 0) : ℕ × ℚ) else ((0, 0) : ℕ × ℚ) := by
          simp only [selectBest, List.range_succ, List.range_zero, List.nil_append,
            List.map_cons, List.map_nil, List.foldl_cons, List.foldl_nil]
        rw [hsplit]
        by_cases h0 : f 0 > 0
        · rw [if_pos h0]
          refine ⟨Nat.lt_succ_self 0, rfl, ?_, by intro j hj; simp at hj⟩
          intro j hj
          have hj0 : j = 0 := by omega
          subst hj0; exact le_refl _
        · have hf0 : f 0 = 0 := le_antisymm (le_of_not_lt h0) (hf 0)
          rw [if_neg h0]
          refine ⟨Nat.lt_succ_self 0, hf0.symm, ?_, by intro j hj; simp at hj⟩
          intro j hj
          have hj0 : j = 0 := by omega
          subst hj0; rw [hf0]

lemma selectBest_fst_zero_or_mem :
    ∀ (l : List (ℕ × ℚ)), (selectBest l).1 = 0 ∨ (selectBest l).1 ∈ l.map Prod.fst := by
  have main : ∀ (l : List (ℕ × ℚ)) (b : ℕ × ℚ),
      (l.foldl (fun best p => if p.2 > best.2 then p else best) b).1 = b.1 ∨
      (l.foldl (fun best p => if p.2 > best.2 then p else best) b).1 ∈ l.map Prod.fst := by
    intro l
    induction l with
    | nil => intro b; exact Or.inl rfl
    | cons x rest ih =>
        intro b
        simp only [List.foldl_cons, List.map_cons, List.mem_cons]
        by_cases hc : x.2 > b.2
        · rw [if_pos hc]
          rcases ih x with h | h
          · exact Or.inr (Or.inl h)
          · exact Or.inr (Or.inr h)
        · rw [if_neg hc]
          rcases ih b with h | h
          · exact Or.inl h
          · exact Or.inr (Or.inr h)
  intro l
  exact main l (0, 0)

lemma numShifts_pos (tempo : ℕ) (h1 : 1 ≤ tempo) (h2 : tempo ≤ 60000) :
    1 ≤ numShifts tempo := by
  have ht : (0 : ℚ) < (tempo : ℚ) := by exact_mod_cast Nat.pos_of_ne_zero (by omega)
  have hx : (1 : ℚ) ≤ 60 / (tempo : ℚ) * 1000 := by
    rw [div_mul_eq_mul_div, le_div_iff₀ ht]
    have : (tempo : ℚ) ≤ 60000 := by exact_mod_cast h2
    linarith
  have hnn : (0 : ℚ) ≤ 60 / (tempo : ℚ) * 1000 := by linarith
  simp only [numShifts, pyInt, if_neg (not_lt.mpr hnn)]
  have : (1 : ℤ) ≤ ⌊60 / (tempo : ℚ) * 1000⌋ := by
    rw [Int.le_floor]; exact_mod_cast hx
  omega

lemma numShifts_le (tempo : ℕ) (h1 : 1 ≤ tempo) :
    ((numShifts tempo : ℚ)) ≤ 60 / (tempo : ℚ) * 1000 := by
  have ht : (0 : ℚ) < (tempo : ℚ) := by exact_mod_cast Nat.pos_of_ne_zero (by omega)
  have hnn : (0 : ℚ) ≤ 60 / (tempo : ℚ) * 1000 := by positivity
  simp only [numShifts, pyInt, if_neg (not_lt.mpr hnn)]
  have hfl : (0 : ℤ) ≤ ⌊60 / (tempo : ℚ) * 1000⌋ := Int.floor_nonneg.mpr hnn
  have hcast : ((⌊60 / (tempo : ℚ) * 1000⌋.toNat : ℕ) : ℚ)
      = ((⌊60 / (tempo : ℚ) * 1000⌋ : ℤ) : ℚ) := by
    exact_mod_cast congrArg (fun z : ℤ => (z : ℚ)) (Int.toNat_of_nonneg hfl)
  rw [hcast]
  exact Int.floor_le _

lemma getTimeShiftMs_least_best (score : ℤ → ℚ) (tempo : ℕ)
    (hnn : ∀ i : ℕ, 0 ≤ score (i : ℤ)) (hK : 1 ≤ numShifts tempo) :
    IsBestShift score tempo (getTimeShiftMs score tempo) ∧
    ∀ t, IsBestShift score tempo t → getTimeShiftMs score tempo ≤ t := by
  obtain ⟨h1, h2, h3, h4⟩ :=
    selectBest_range_spec (fun i : ℕ => score (i : ℤ)) hnn (numShifts tempo) hK
  have hms : getTimeShiftMs score tempo
      = (selectBest ((List.range (numShifts tempo)).map (fun i : ℕ => (i, score (i : ℤ))))).1 := rfl
  constructor
  · refine ⟨by rw [hms]; exact h1, ?_⟩
    intro j hj
    have := h3 j hj
    rw [h2] at this
    rw [hms]
    exact this
  · intro t ht
    by_contra hcon
    push_neg at hcon
    have h5 := h4 t (by rw [hms] at hcon; exact hcon)
    rw [h2] at h5
    have h6 := ht.2 (getTimeShiftMs score tempo) (by rw [hms]; exact h1)
    rw [hms] at h6
    exact absurd h6 (not_le_of_lt h5)

/-- **C3**: for every onset-candidate set, tempo and duration, and for both
scoring modes (`ScoreBeatTracker` and `PenaltyBeatTracker`, the latter run with
`period = 60/tempo` as set in `BeatTracker.__init__`), the millisecond shift
chosen by `BeatTracker.get_time_shift` lies in the search space, its total
score is at least the score of every shift in the search space, it is the
smallest such shift, and the returned phase is that winning shift divided by
1000. -/
theorem get_time_shift_least_best (peaks clicks : List ℚ) (tol : ℚ) (tempo : ℕ)
    (_hpeaks : peaks ≠ []) (h1 : 1 ≤ tempo) (h2 : tempo ≤ 60000) :
    (IsBestShift (scoreBinary peaks clicks tol) tempo
        (getTimeShiftMs (scoreBinary peaks clicks tol) tempo) ∧
      (∀ t, IsBestShift (scoreBinary peaks clicks tol) tempo t →
        getTimeShiftMs (scoreBinary peaks clicks tol) tempo ≤ t) ∧
      getTimeShift (scoreBinary peaks clicks tol) tempo
        = (getTimeShiftMs (scoreBinary peaks clicks tol) tempo : ℚ) / 1000) ∧
    (IsBestShift (scorePenalty peaks clicks (60 / (tempo : ℚ))) tempo
        (getTimeShiftMs (scorePenalty peaks clicks (60 / (tempo : ℚ))) tempo) ∧
      (∀ t, IsBestShift (scorePenalty peaks clicks (60 / (tempo : ℚ))) tempo t →
        getTimeShiftMs (scorePenalty peaks clicks (60 / (tempo : ℚ))) tempo ≤ t) ∧
      getTimeShift (scorePenalty peaks clicks (60 / (tempo : ℚ))) tempo
        = (getTimeShiftMs (scorePenalty peaks clicks (60 / (tempo : ℚ))) tempo : ℚ) / 1000) := by
  have hK := numShifts_pos tempo h1 h2
  have hb := getTimeShiftMs_least_best (scoreBinary peaks clicks tol) tempo
    (fun i => scoreBinary_nonneg peaks clicks tol (i : ℤ)) hK
  have hp := getTimeShiftMs_least_best (scorePenalty peaks clicks (60 / (tempo : ℚ))) tempo
    (fun i => scorePenalty_nonneg peaks clicks (60 / (tempo : ℚ)) (i : ℤ)) hK
  exact ⟨⟨hb.1, hb.2, rfl⟩, ⟨hp.1, hp.2, rfl⟩⟩

/-- Witness for C3 at a concrete input: one onset candidate at time 0, one
click at time 0, tolerance 10 ms, tempo 30000 BPM (a 2 ms beat period). -/
theorem get_time_shift_least_best_witness :
    ([0] : List ℚ) ≠ [] ∧ (1 ≤ 30000 ∧ 30000 ≤ 60000) ∧
    IsBestShift (scoreBinary [0] [0] 10) 30000
      (getTimeShiftMs (scoreBinary [0] [0] 10) 30000) :=
  ⟨by simp, ⟨by norm_num, by norm_num⟩,
    (get_time_shift_least_best [0] [0] 10 30000 (by simp) (by norm_num) (by norm_num)).1.1⟩

/-- **C7**: for every scoring function (hence every onset-candidate set and
duration) and every positive integer tempo, the phase returned by
`get_time_shift` lies in `[0, 60/tempo)`, and the search evaluates exactly the
integer millisecond shifts `0, 1, ..., int(60000/tempo) - 1`, each exactly
once. -/
theorem get_time_shift_phase_range (score : ℤ → ℚ) (tempo : ℕ) (h1 : 1 ≤ tempo) :
    0 ≤ getTimeShift score tempo ∧
    getTimeShift score tempo < 60 / (tempo : ℚ) ∧
    (tryAllTimeShifts score tempo).map Prod.fst = List.range (numShifts tempo) ∧
    ((tryAllTimeShifts score tempo).map Prod.fst).Nodup := by
  have ht : (0 : ℚ) < (tempo : ℚ) := by exact_mod_cast Nat.pos_of_ne_zero (by omega)
  have hmap : (tryAllTimeShifts score tempo).map Prod.fst = List.range (numShifts tempo) := by
    simp only [tryAllTimeShifts, List.map_map]
    have hid : (Prod.fst ∘ fun i : ℕ => (i, score (i : ℤ))) = id := rfl
    rw [hid, List.map_id]
  refine ⟨by rw [getTimeShift]; positivity, ?_, hmap, by rw [hmap]; exact List.nodup_range _⟩
  rcases selectBest_fst_zero_or_mem (tryAllTimeShifts score tempo) with h | h
  · have hz : getTimeShift score tempo = 0 := by
      simp only [getTimeShift, getTimeShiftMs, h, Nat.cast_zero, zero_div]
    rw [hz]
    exact div_pos (by norm_num) ht
  · rw [hmap] at h
    have hlt : getTimeShiftMs score tempo < numShifts tempo := List.mem_range.mp h
    have hle := numShifts_le tempo h1
    have hcast : ((getTimeShiftMs score tempo : ℕ) : ℚ) < ((numShifts tempo : ℕ) : ℚ) := by
      exact_mod_cast hlt
    have : ((getTimeShiftMs score tempo : ℕ) : ℚ) < 60 / (tempo : ℚ) * 1000 :=
      lt_of_lt_of_le hcast hle
    rw [getTimeShift]
    linarith

/-- Witness for C7 at tempo 60 BPM with the binary scorer on one peak and one
click. -/
theorem get_time_shift_phase_range_witness :
    1 ≤ 60 ∧ 0 ≤ getTimeShift (scoreBinary [0] [0] 10) 60 ∧
    getTimeShift (scoreBinary [0] [0] 10) 60 < 60 / (60 : ℚ) :=
  ⟨by norm_num, (get_time_shift_phase_range (scoreBinary [0] [0] 10) 60 (by norm_num)).1,
    (get_time_shift_phase_range (scoreBinary [0] [0] 10) 60 (by norm_num)).2.1⟩

/-- **C2**: the claim fails on the code as a units slip.  With tempo 60 BPM
(`period = 1` second), a single click at time 0 and a single onset candidate
at 0.1 s, shift 0: the code computes the distance in milliseconds (100) but
compares it against `period/2` in seconds (0.5), so the click receives the
maximal penalty and the total score is 0, whereas the specified same-unit
penalty is `0.1^2 * 4 / 1^2 = 0.04` (equivalently `100^2 * 4 / 1000^2`),
giving a total score of 24/25. -/
theorem penalty_score_units_mismatch :
    getClickTimesSec 60 0 5 = [0] ∧
    scorePenalty [1/10] (getClickTimesSec 60 0 5) (60 / (60 : ℚ)) 0 = 0 ∧
    specPenaltyScore [1/10] (getClickTimesSec 60 0 5) (60 / (60 : ℚ) * 1000) 0 = 24/25 ∧
    scorePenalty [1/10] (getClickTimesSec 60 0 5) (60 / (60 : ℚ)) 0
      ≠ specPenaltyScore [1/10] (getClickTimesSec 60 0 5) (60 / (60 : ℚ) * 1000) 0 := by
  refine ⟨?_, ?_, ?_, ?_⟩ <;>
    norm_num [scorePenalty, specPenaltyScore, specNearestDistMs, clickStep,
      scanPeaksWhile, penalty, getClickTimesSec, clickTimesAux, List.foldl]

/-- First index of the maximum of a list (`np.argmax`); 0 on an all-equal or
empty list.  `np.argmax` returns the first occurrence of the maximum, which is
mirrored by updating the incumbent only on a strictly greater value. -/
def argmaxIdx (l : List ℚ) : ℕ :=
  (l.enum.foldl (fun best p => if p.2 > best.2 then p else best) ((0, l.headD 0) : ℕ × ℚ)).1

/-- Row sums of the tempogram: `np.sum(self.tempogram.T, axis=0)` in
`Tempogram._get_possible_BPM_from_tempogram` (tempogram.py), one strength
value per BPM bin. -/
def sumOfTempos (tempogram : List (List ℚ)) : List ℚ :=
  tempogram.map (fun row => row.foldl (· + ·) 0)

/-- Embedding of the inner `for i in range(...)` round of
`_get_possible_BPM_from_tempogram`: extract `n` argmax indices, zeroing each
extracted bin. -/
def extractMaxRound : ℕ → List ℚ → List ℕ × List ℚ
  | 0, sums => ([], sums)
  | n + 1, sums =>
      let idx := argmaxIdx sums
      let rest := extractMaxRound n (sums.set idx 0)
      (idx :: rest.1, rest.2)

/-- Embedding of the list comprehension filtering one round of extracted
indices through `self.bpm_values[...]` and the `lower_bound ≤ i ≤ upper_bound`
bound check. -/
def bpmFilter (bpmValues : List ℚ) (lower upper : ℚ) (idxs : List ℕ) : List ℚ :=
  (idxs.map (fun i => bpmValues.getD i 0)).filter (fun b => decide (lower ≤ b ∧ b ≤ upper))

/-- Embedding of the `while len(max_bpms) < self.number_of_dominant_values`
loop of `_get_possible_BPM_from_tempogram` (tempogram.py), fuel-indexed:
`none` means the loop has not returned within `fuel` iterations; since the
body is deterministic, `(∀ fuel, ... = none)` states that the Python loop
never terminates. -/
def getPossibleBPM (bpmValues : List ℚ) (lower upper : ℚ) (n : ℕ) :
    ℕ → List ℚ → List ℚ → Option (List ℚ)
  | 0, _, _ => none
  | fuel + 1, sums, acc =>
      if n ≤ acc.length then some acc
      else
        let r := extractMaxRound n sums
        getPossibleBPM bpmValues lower upper n fuel r.2
          (acc ++ bpmFilter bpmValues lower upper r.1)

lemma getD_mem_or_default (l : List ℚ) (i : ℕ) (d : ℚ) :
    l.getD i d ∈ l ∨ l.getD i d = d := by
  rcases h : l.get? i with _ | x
  · right
    simp [List.getD_eq_getElem?_getD, ← List.get?_eq_getElem?, h]
  · left
    have hx := List.get?_mem h
    have : l.getD i d = x := by
      simp [List.getD_eq_getElem?_getD, ← List.get?_eq_getElem?, h]
    rw [this]
    exact hx

lemma bpmFilter_out_of_bounds (bpmValues : List ℚ) (lower upper : ℚ)
    (hout : ∀ b ∈ bpmValues, b < lower ∨ upper < b) (hdef : 0 < lower ∨ upper < 0) :
    ∀ idxs, bpmFilter bpmValues lower upper idxs = [] := by
  intro idxs
  rw [bpmFilter, List.filter_eq_nil_iff]
  intro b hb
  rcases List.mem_map.mp hb with ⟨i, _, hi⟩
  subst hi
  simp only [decide_eq_true_eq, not_and, not_le]
  intro hl
  rcases getD_mem_or_default bpmValues i 0 with hmem | hzero
  · rcases hout _ hmem with h | h
    · linarith
    · linarith
  · rw [hzero] at hl ⊢
    rcases hdef with h | h
    · linarith
    · linarith

/-- **C1**: the claim fails as a code bug.  When no BPM bin value lies in
`[lower_bound, upper_bound]` (and 0, the out-of-range indexing default, is
also out of bounds), `_get_possible_BPM_from_tempogram` does not raise or
return: each pass of the `while` loop appends nothing to `max_bpms`, so for
every amount of fuel the loop is still running — the Python code loops
forever instead of signalling an estimation failure. -/
theorem get_possible_bpm_never_returns (bpmValues : List ℚ) (lower upper : ℚ) (n : ℕ)
    (hn : 1 ≤ n)
    (hout : ∀ b ∈ bpmValues, b < lower ∨ upper < b)
    (hdef : 0 < lower ∨ upper < 0) :
    ∀ (fuel : ℕ) (sums : List ℚ),
      getPossibleBPM bpmValues lower upper n fuel sums [] = none := by
  intro fuel
  induction fuel with
  | zero => intro sums; rfl
  | succ m ih =>
      intro sums
      rw [getPossibleBPM, if_neg (by simp; omega)]
      simp only [bpmFilter_out_of_bounds bpmValues lower upper hout hdef, List.append_nil]
      exact ih _

/-- Witness for C1: BPM bins `[300, 250]` with bounds `[40, 200]`; with 4
units of fuel (or any other amount) the loop has not produced a value. -/
theorem get_possible_bpm_never_returns_witness :
    getPossibleBPM [300, 250] 40 200 5 4 [1, 2] [] = none :=
  get_possible_bpm_never_returns [300, 250] 40 200 5 (by norm_num)
    (by intro b hb; fin_cases hb <;> norm_num) (by norm_num) 4 [1, 2]

/-- Embedding of one pass of the `for bpm in bpm_list` loop of
`Tempogram._group_similar_bpms` (tempogram.py).  The Python dict keyed by each
group's first member is an association list in insertion order: the candidate
is appended to every group whose key is within `similarity`; if it joined no
group, a new singleton group keyed by the candidate is created. -/
def groupStep (similarity : ℚ) (groups : List (ℚ × List ℚ)) (bpm : ℚ) : List (ℚ × List ℚ) :=
  let joined := groups.map (fun g => if |bpm - g.1| ≤ similarity then (g.1, g.2 ++ [bpm]) else g)
  if groups.any (fun g => decide (|bpm - g.1| ≤ similarity)) then joined
  else joined ++ [(bpm, [bpm])]

/-- Embedding of `Tempogram._group_similar_bpms(bpm_list)` (tempogram.py). -/
def groupSimilarBpms (similarity : ℚ) (bpmList : List ℚ) : List (ℚ × List ℚ) :=
  bpmList.foldl (groupStep similarity) []

/-- Candidates `x` and `y` share the group keyed `k`. -/
def InGroupPair (k x y : ℚ) (groups : List (ℚ × List ℚ)) : Prop :=
  ∃ g ∈ groups, g.1 = k ∧ x ∈ g.2 ∧ y ∈ g.2

/-- **C4**: the claim fails.  With `similarity = 5` and candidate list
`[100, 105, 110]`, candidate 105 joins the group keyed 100 and candidate 110
starts a new group, so 105 and 110 differ by exactly `similarity` yet share no
group. -/
theorem group_similar_bpms_counterexample :
    |(105 : ℚ) - 110| ≤ 5 ∧
    groupSimilarBpms 5 [100, 105, 110] = [(100, [100, 105]), (110, [110])] ∧
    ∀ g ∈ groupSimilarBpms 5 [100, 105, 110], ¬((105 : ℚ) ∈ g.2 ∧ (110 : ℚ) ∈ g.2) := by
  have heval : groupSimilarBpms 5 [100, 105, 110] = [(100, [100, 105]), (110, [110])] := by
    norm_num [groupSimilarBpms, groupStep, List.foldl]
  refine ⟨by norm_num, heval, ?_⟩
  rw [heval]
  intro g hg
  rcases List.mem_cons.mp hg with h | h
  · subst h
    rintro ⟨_, h2⟩
    norm_num at h2
  · rcases List.mem_cons.mp h with h | h
    · subst h
      rintro ⟨h1, _⟩
      norm_num at h1
    · simp at h

lemma inGroupPair_step (sim : ℚ) (groups : List (ℚ × List ℚ)) (b k x y : ℚ)
    (h : InGroupPair k x y groups) : InGroupPair k x y (groupStep sim groups b) := by
  obtain ⟨g, hg, hk, hx, hy⟩ := h
  have hg1 : (if |b - g.1| ≤ sim then (g.1, g.2 ++ [b]) else g)
      ∈ groups.map (fun g => if |b - g.1| ≤ sim then (g.1, g.2 ++ [b]) else g) :=
    List.mem_map_of_mem _ hg
  have hkey : (if |b - g.1| ≤ sim then (g.1, g.2 ++ [b]) else g).1 = k := by
    split <;> simpa using hk
  have hxm : x ∈ (if |b - g.1| ≤ sim then (g.1, g.2 ++ [b]) else g).2 := by
    split
    · exact List.mem_append_left _ hx
    · exact hx
  have hym : y ∈ (if |b - g.1| ≤ sim then (g.1, g.2 ++ [b]) else g).2 := by
    split
    · exact List.mem_append_left _ hy
    · exact hy
  rw [groupStep]
  split
  · exact ⟨_, hg1, hkey, hxm, hym⟩
  · exact ⟨_, List.mem_append_left _ hg1, hkey, hxm, hym⟩

lemma inGroupPair_join (sim : ℚ) (groups : List (ℚ × List ℚ)) (b k : ℚ)
    (h : InGroupPair k k k groups) (hnear : |b - k| ≤ sim) :
    InGroupPair k k b (groupStep sim groups b) := by
  obtain ⟨g, hg, hk, hkm, _⟩ := h
  have hcond : |b - g.1| ≤ sim := by rw [hk]; exact hnear
  have hg1 : (g.1, g.2 ++ [b])
      ∈ groups.map (fun g => if |b - g.1| ≤ sim then (g.1, g.2 ++ [b]) else g) := by
    have h2 := List.mem_map_of_mem (fun g => if |b - g.1| ≤ sim then (g.1, g.2 ++ [b]) else g) hg
    simp only [if_pos hcond] at h2
    exact h2
  have hbm : b ∈ g.2 ++ [b] := List.mem_append_right _ (List.mem_singleton.mpr rfl)
  rw [groupStep]
  split
  · exact ⟨_, hg1, hk, List.mem_append_left _ hkm, hbm⟩
  · exact ⟨_, List.mem_append_left _ hg1, hk, List.mem_append_left _ hkm, hbm⟩

lemma inGroupPair_foldl (sim : ℚ) (k x y : ℚ) :
    ∀ (l : List ℚ) (G : List (ℚ × List ℚ)),
      InGroupPair k x y G → InGroupPair k x y (l.foldl (groupStep sim) G) := by
  intro l
  induction l with
  | nil => intro G h; exact h
  | cons b rest ih =>
      intro G h
      exact ih _ (inGroupPair_step sim G b k x y h)

lemma groupStep_keys_self (sim : ℚ) (G : List (ℚ × List ℚ)) (b : ℚ)
    (h : ∀ k ∈ G.map Prod.fst, InGroupPair k k k G) :
    ∀ k ∈ (groupStep sim G b).map Prod.fst, InGroupPair k k k (groupStep sim G b) := by
  intro k hk
  have hcomp : (Prod.fst ∘ fun g : ℚ × List ℚ => if |b - g.1| ≤ sim then (g.1, g.2 ++ [b]) else g)
      = Prod.fst := by
    funext g
    by_cases hc : |b - g.1| ≤ sim <;> simp [hc]
  simp only [groupStep] at hk
  by_cases hany : G.any (fun g => decide (|b - g.1| ≤ sim)) = true
  · rw [if_pos hany] at hk
    rw [List.map_map, hcomp] at hk
    exact inGroupPair_step sim G b k k k (h k hk)
  · rw [if_neg hany, List.map_append, List.map_map, hcomp] at hk
    rcases List.mem_append.mp hk with hmem | hmem
    · exact inGroupPair_step sim G b k k k (h k hmem)
    · have hkb : k = b := by simpa using hmem
      subst hkb
      refine ⟨(k, [k]), ?_, rfl, by simp, by simp⟩
      simp only [groupStep]
      rw [if_neg hany]
      exact List.mem_append_right _ (by simp)

lemma foldl_keys_self (sim : ℚ) :
    ∀ (l : List ℚ) (G : List (ℚ × List ℚ)),
      (∀ k ∈ G.map Prod.fst, InGroupPair k k k G) →
      ∀ k ∈ (l.foldl (groupStep sim) G).map Prod.fst,
        InGroupPair k k k (l.foldl (groupStep sim) G) := by
  intro l
  induction l with
  | nil => intro G h; exact h
  | cons b rest ih =>
      intro G h
      exact ih _ (groupStep_keys_self sim G b h)

/-- **C4 amended**: two candidates with absolute difference at most
`similarity` end up in a common group whenever the earlier one is a group
representative (a key of the groups built from the prefix before the later
candidate); when the earlier candidate merely joined someone else's group the
two may share no group, as the counterexample shows. -/
theorem group_similar_bpms_amended (sim : ℚ) (pre post : List ℚ) (b k : ℚ)
    (hk : k ∈ (groupSimilarBpms sim pre).map Prod.fst) (hnear : |b - k| ≤ sim) :
    ∃ g ∈ groupSimilarBpms sim (pre ++ b :: post), g.1 = k ∧ k ∈ g.2 ∧ b ∈ g.2 := by
  have h0 : InGroupPair k k k (groupSimilarBpms sim pre) := by
    have hempty : ∀ k0 ∈ (([] : List (ℚ × List ℚ)).map Prod.fst),
        InGroupPair k0 k0 k0 ([] : List (ℚ × List ℚ)) := by simp
    exact foldl_keys_self sim pre [] hempty k hk
  have hsplit : groupSimilarBpms sim (pre ++ b :: post)
      = post.foldl (groupStep sim) (groupStep sim (groupSimilarBpms sim pre) b) := by
    simp [groupSimilarBpms, List.foldl_append]
  rw [hsplit]
  exact inGroupPair_foldl sim k k b post _
    (inGroupPair_join sim (groupSimilarBpms sim pre) b k h0 hnear)

/-- Indices inside the symmetric 5-frame look-around window of `i`, clipped
to the signal.  Used by the model of the external local-maximum detector. -/
def windowIdx (n i : ℕ) : List ℕ :=
  (List.range n).filter (fun j => decide (i ≤ j + 5 ∧ j ≤ i + 5))

/-- Modelled from the spec: the external detector
`librosa.util.peak_pick(part, pre_max=5, post_max=5, pre_avg=5, post_avg=5,
delta, wait=5)` accepts an index as a peak when its value equals the maximum
of the surrounding window and exceeds the window mean by at least `delta`. -/
def IsPeakAt (xs : List ℚ) (delta : ℚ) (i : ℕ) : Prop :=
  (∀ j ∈ windowIdx xs.length i, xs.getD j 0 ≤ xs.getD i 0) ∧
  ((windowIdx xs.length i).map (fun j => xs.getD j 0)).foldl (· + ·) 0
      / ((windowIdx xs.length i).length : ℚ) + delta
    ≤ xs.getD i 0

instance decIsPeakAt (xs : List ℚ) (delta : ℚ) (i : ℕ) : Decidable (IsPeakAt xs delta i) := by
  unfold IsPeakAt
  infer_instance

/-- Modelled from the spec: the scan of `librosa.util.peak_pick` over all
indices, keeping a peak only when it comes more than `wait = 5` frames after
the previously accepted peak; output is in ascending index order. -/
def libPeakPick (xs : List ℚ) (delta : ℚ) : List ℕ :=
  ((List.range xs.length).foldl
    (fun (st : List ℕ × Option ℕ) i =>
      if decide (IsPeakAt xs delta i)
          && (match st.2 with | none => true | some l => decide (l + 5 < i))
      then (st.1 ++ [i], some i) else st)
    ([], none)).1

/-- Embedding of the `while len(peaks) < min_number_of_peaks_in_part` loop of
`peak_pick_from_part` (peak_picking.py), fuel-bounded: shrink the threshold by
a factor of 1.1 and retry until enough peaks are found or the threshold has
fallen below `min_delta`. -/
def peakPickFromPartLoop (xs : List ℚ) (minPeaks : ℕ) (minDelta : ℚ) :
    ℕ → ℚ → List ℕ → List ℕ
  | 0, _, peaks => peaks
  | fuel + 1, delta, peaks =>
      if minPeaks ≤ peaks.length then peaks
      else
        let deltaNew := delta / (11 / 10)
        let peaksNew := libPeakPick xs deltaNew
        if deltaNew < minDelta then peaksNew
        else peakPickFromPartLoop xs minPeaks minDelta fuel deltaNew peaksNew

/-- Embedding of `peak_pick_from_part(part, delta, min_number_of_peaks_in_part,
min_delta)` (peak_picking.py). -/
def peakPickFromPart (xs : List ℚ) (delta : ℚ) (minPeaks : ℕ) (minDelta : ℚ)
    (fuel : ℕ) : List ℕ :=
  peakPickFromPartLoop xs minPeaks minDelta fuel delta (libPeakPick xs delta)

/-- Embedding of `extract_part_from_novelty` (peak_picking.py) for a regular
part number `0 ≤ part_number < parts`: zeros before the part, the part itself,
zeros for the remaining parts and for the remainder segment. -/
def extractPartFromNovelty (novelty : List ℚ) (partLen partNumber parts lastPartLen : ℕ) :
    List ℚ :=
  List.replicate (partNumber * partLen) 0
    ++ (novelty.drop (partNumber * partLen)).take partLen
    ++ List.replicate ((parts - partNumber - 1) * partLen) 0
    ++ List.replicate lastPartLen 0

/-- Embedding of `extract_part_from_novelty` with `part_number = -1`: zeros for
all regular parts followed by the last `last_part_len` novelty entries (the
Python slice `novelty_function[-last_part_len:]`; only used when
`last_part_len > 0`). -/
def extractLastPartFromNovelty (novelty : List ℚ) (partLen parts lastPartLen : ℕ) : List ℚ :=
  List.replicate (parts * partLen) 0 ++ novelty.drop (novelty.length - lastPartLen)

/-- Embedding of `peak_pick(novelty_function, duration, min_number_of_peaks,
part_len_seconds, min_delta)` (peak_picking.py).  `none` models a Python
`ZeroDivisionError`: `part_len_seconds = 0`, or `parts = 0` in the
`part_len = int(len(novelty_function) / parts)` line (which happens exactly
when `0 ≤ duration < part_len_seconds`). -/
def peakPick (novelty : List ℚ) (duration : ℚ) (minPeaks partLenSeconds : ℕ)
    (minDelta : ℚ) (fuel : ℕ) : Option (List ℕ) :=
  if partLenSeconds = 0 then none
  else
    let parts := (pyInt (duration / (partLenSeconds : ℚ))).toNat
    if parts = 0 then none
    else
      let partLen := novelty.length / parts
      let lastPartLen := novelty.length - parts * partLen
      let mainPeaks := (List.range parts).flatMap (fun i =>
        peakPickFromPart (extractPartFromNovelty novelty partLen i parts lastPartLen)
          100 (minPeaks / parts) minDelta fuel)
      if lastPartLen = 0 then some mainPeaks
      else
        let lastTarget := (pyInt ((minPeaks : ℚ) / (duration / (lastPartLen : ℚ)))).toNat
        some (mainPeaks ++
          peakPickFromPart (extractLastPartFromNovelty novelty partLen parts lastPartLen)
            100 lastTarget minDelta fuel)

lemma getD_replicate_zero (n k : ℕ) : (List.replicate n (0 : ℚ)).getD k 0 = 0 := by
  rcases Nat.lt_or_ge k n with h | h
  · rw [List.getD_eq_getElem _ _ (by simpa using h)]
    simp
  · exact List.getD_eq_default _ _ (by simpa using h)

lemma foldl_add_nonneg : ∀ (l : List ℚ), (∀ x ∈ l, 0 ≤ x) → ∀ init : ℚ, 0 ≤ init →
    0 ≤ l.foldl (· + ·) init := by
  intro l
  induction l with
  | nil => intro _ init h; exact h
  | cons x rest ih =>
      intro hx init h
      exact ih (fun y hy => hx y (List.mem_cons_of_mem _ hy)) _
        (by have := hx x (List.mem_cons_self _ _); show (0 : ℚ) ≤ init + x; linarith)

lemma isPeakAt_pos (xs : List ℚ) (delta : ℚ) (i : ℕ)
    (hnn : ∀ x ∈ xs, 0 ≤ x) (hdelta : 0 < delta) (hi : i < xs.length)
    (hp : IsPeakAt xs delta i) : 0 < xs.getD i 0 := by
  obtain ⟨_, hmean⟩ := hp
  have hw : i ∈ windowIdx xs.length i := by
    rw [windowIdx, List.mem_filter]
    exact ⟨List.mem_range.mpr hi, by simp⟩
  have hlen : 0 < (windowIdx xs.length i).length := List.length_pos_of_mem hw
  have hvals : ∀ x ∈ (windowIdx xs.length i).map (fun j => xs.getD j 0), 0 ≤ x := by
    intro x hx
    rcases List.mem_map.mp hx with ⟨j, _, hj⟩
    subst hj
    rcases getD_mem_or_default xs j 0 with hmem | hzero
    · exact hnn _ hmem
    · rw [hzero]
  have hsum : 0 ≤ ((windowIdx xs.length i).map (fun j => xs.getD j 0)).foldl (· + ·) 0 :=
    foldl_add_nonneg _ hvals 0 (le_refl 0)
  have hlenq : (0 : ℚ) < ((windowIdx xs.length i).length : ℚ) := by exact_mod_cast hlen
  have hmean0 : 0 ≤ ((windowIdx xs.length i).map (fun j => xs.getD j 0)).foldl (· + ·) 0
      / ((windowIdx xs.length i).length : ℚ) := div_nonneg hsum (le_of_lt hlenq)
  linarith

lemma libPeakPick_fold_mem (xs : List ℚ) (delta : ℚ) :
    ∀ (l : List ℕ) (st : List ℕ × Option ℕ),
      ∀ a ∈ (l.foldl
        (fun (st : List ℕ × Option ℕ) i =>
          if decide (IsPeakAt xs delta i)
              && (match st.2 with | none => true | some lst => decide (lst + 5 < i))
          then (st.1 ++ [i], some i) else st) st).1,
        a ∈ st.1 ∨ (a ∈ l ∧ IsPeakAt xs delta a) := by
  intro l
  induction l with
  | nil => intro st a ha; exact Or.inl ha
  | cons i rest ih =>
      intro st a ha
      rw [List.foldl_cons] at ha
      rcases ih _ a ha with h | h
      · by_cases hc : (decide (IsPeakAt xs delta i)
            && (match st.2 with | none => true | some lst => decide (lst + 5 < i))) = true
        · rw [if_pos hc] at h
          simp only at h
          rcases List.mem_append.mp h with h1 | h1
          · exact Or.inl h1
          · have ha' : a = i := by simpa using h1
            subst ha'
            have hp : IsPeakAt xs delta a := by
              have := (Bool.and_eq_true _ _).mp hc
              exact of_decide_eq_true this.1
            exact Or.inr ⟨List.mem_cons_self _ _, hp⟩
        · rw [if_neg hc] at h
          exact Or.inl h
      · exact Or.inr ⟨List.mem_cons_of_mem _ h.1, h.2⟩

lemma libPeakPick_fold_sorted (xs : List ℚ) (delta : ℚ) :
    ∀ (l : List ℕ) (st : List ℕ × Option ℕ),
      st.1.Pairwise (· < ·) →
      ((st.2 = none ∧ st.1 = []) ∨ ∃ lst, st.2 = some lst ∧ ∀ a ∈ st.1, a ≤ lst) →
      (l.foldl
        (fun (st : List ℕ × Option ℕ) i =>
          if decide (IsPeakAt xs delta i)
              && (match st.2 with | none => true | some lst => decide (lst + 5 < i))
          then (st.1 ++ [i], some i) else st) st).1.Pairwise (· < ·) := by
  intro l
  induction l with
  | nil => intro st h1 _; exact h1
  | cons i rest ih =>
      intro st h1 h2
      rw [List.foldl_cons]
      by_cases hc : (decide (IsPeakAt xs delta i)
          && (match st.2 with | none => true | some lst => decide (lst + 5 < i))) = true
      · rw [if_pos hc]
        have hbefore : ∀ a ∈ st.1, a < i := by
          rcases h2 with ⟨_, hempty⟩ | ⟨lst, hsome, hle⟩
          · rw [hempty]; intro a ha; simp at ha
          · intro a ha
            have h5 : lst + 5 < i := by
              have hand := (Bool.and_eq_true _ _).mp hc
              have := hand.2
              rw [hsome] at this
              exact of_decide_eq_true this
            have := hle a ha
            omega
        apply ih
        · simp only
          rw [List.pairwise_append]
          refine ⟨h1, List.pairwise_singleton _ _, ?_⟩
          intro a ha b hb
          have hb' : b = i := by simpa using hb
          subst hb'
          exact hbefore a ha
        · right
          refine ⟨i, rfl, ?_⟩
          intro a ha
          simp only at ha
          rcases List.mem_append.mp ha with h3 | h3
          · exact le_of_lt (hbefore a h3)
          · have : a = i := by simpa using h3
            omega
      · rw [if_neg hc]
        exact ih st h1 h2

lemma libPeakPick_sorted (xs : List ℚ) (delta : ℚ) :
    (libPeakPick xs delta).Pairwise (· < ·) := by
  rw [libPeakPick]
  exact libPeakPick_fold_sorted xs delta _ ([], none)
    (List.Pairwise.nil) (Or.inl ⟨rfl, rfl⟩)

lemma libPeakPick_mem (xs : List ℚ) (delta : ℚ) :
    ∀ a ∈ libPeakPick xs delta, a < xs.length ∧ IsPeakAt xs delta a := by
  intro a ha
  rw [libPeakPick] at ha
  rcases libPeakPick_fold_mem xs delta _ ([], none) a ha with h | h
  · simp at h
  · exact ⟨List.mem_range.mp h.1, h.2⟩

/-- The invariant carried through the adaptive-threshold retry loop: the peak
list is ascending and every peak is an in-range index with positive value. -/
def GoodPeaks (xs : List ℚ) (peaks : List ℕ) : Prop :=
  peaks.Pairwise (· < ·) ∧ ∀ a ∈ peaks, a < xs.length ∧ 0 < xs.getD a 0

lemma libPeakPick_good (xs : List ℚ) (delta : ℚ)
    (hnn : ∀ x ∈ xs, 0 ≤ x) (hdelta : 0 < delta) :
    GoodPeaks xs (libPeakPick xs delta) := by
  refine ⟨libPeakPick_sorted xs delta, ?_⟩
  intro a ha
  obtain ⟨hlt, hp⟩ := libPeakPick_mem xs delta a ha
  exact ⟨hlt, isPeakAt_pos xs delta a hnn hdelta hlt hp⟩

lemma peakPickFromPartLoop_prop (P : List ℕ → Prop) (xs : List ℚ)
    (minPeaks : ℕ) (minDelta : ℚ)
    (hlib : ∀ d : ℚ, 0 < d → P (libPeakPick xs d)) :
    ∀ (fuel : ℕ) (delta : ℚ), 0 < delta → ∀ peaks, P peaks →
      P (peakPickFromPartLoop xs minPeaks minDelta fuel delta peaks) := by
  intro fuel
  induction fuel with
  | zero => intro delta _ peaks hP; exact hP
  | succ n ih =>
      intro delta hdelta peaks hP
      rw [peakPickFromPartLoop]
      split
      · exact hP
      · have hdn : 0 < delta / (11 / 10) := by positivity
        dsimp only
        split
        · exact hlib _ hdn
        · exact ih _ hdn _ (hlib _ hdn)

lemma peakPickFromPart_good (xs : List ℚ) (minPeaks : ℕ) (minDelta : ℚ) (fuel : ℕ)
    (hnn : ∀ x ∈ xs, 0 ≤ x) :
    GoodPeaks xs (peakPickFromPart xs 100 minPeaks minDelta fuel) := by
  rw [peakPickFromPart]
  exact peakPickFromPartLoop_prop (GoodPeaks xs) xs minPeaks minDelta
    (fun d hd => libPeakPick_good xs d hnn hd) fuel 100 (by norm_num) _
    (libPeakPick_good xs 100 hnn (by norm_num))

lemma extractPart_nonneg (novelty : List ℚ) (partLen partNumber parts lastPartLen : ℕ)
    (hnn : ∀ x ∈ novelty, 0 ≤ x) :
    ∀ x ∈ extractPartFromNovelty novelty partLen partNumber parts lastPartLen, 0 ≤ x := by
  intro x hx
  rw [extractPartFromNovelty] at hx
  rcases List.mem_append.mp hx with h | h
  · rcases List.mem_append.mp h with h1 | h1
    · rcases List.mem_append.mp h1 with h2 | h2
      · rw [List.eq_of_mem_replicate h2]
      · exact hnn x (List.mem_of_mem_drop (List.mem_of_mem_take h2))
    · rw [List.eq_of_mem_replicate h1]
  · rw [List.eq_of_mem_replicate h]

lemma extractLast_nonneg (novelty : List ℚ) (partLen parts lastPartLen : ℕ)
    (hnn : ∀ x ∈ novelty, 0 ≤ x) :
    ∀ x ∈ extractLastPartFromNovelty novelty partLen parts lastPartLen, 0 ≤ x := by
  intro x hx
  rw [extractLastPartFromNovelty] at hx
  rcases List.mem_append.mp hx with h | h
  · rw [List.eq_of_mem_replicate h]
  · exact hnn x (List.mem_of_mem_drop h)

lemma extractPart_pos_zone (novelty : List ℚ) (partLen partNumber parts lastPartLen : ℕ)
    (hplen : parts * partLen ≤ novelty.length) (hpn : partNumber < parts) :
    ∀ j, 0 < (extractPartFromNovelty novelty partLen partNumber parts lastPartLen).getD j 0 →
      partNumber * partLen ≤ j ∧ j < partNumber * partLen + partLen := by
  intro j hpos
  obtain ⟨q, hq⟩ : ∃ q, parts = partNumber + 1 + q := ⟨parts - partNumber - 1, by omega⟩
  subst hq
  have hmul : (partNumber + 1 + q) * partLen
      = partNumber * partLen + partLen + q * partLen := by ring
  rw [extractPartFromNovelty,
    show partNumber + 1 + q - partNumber - 1 = q from by omega] at hpos
  have hBlen : ((novelty.drop (partNumber * partLen)).take partLen).length = partLen := by
    rw [List.length_take, List.length_drop]
    omega
  constructor
  · by_contra hlt
    push_neg at hlt
    rw [List.getD_append _ _ _ _ (by
        simp only [List.length_append, List.length_replicate, hBlen]
        omega)] at hpos
    rw [List.getD_append _ _ _ _ (by
        simp only [List.length_append, List.length_replicate, hBlen]
        omega)] at hpos
    rw [List.getD_append _ _ _ _ (by
        simp only [List.length_replicate]
        omega)] at hpos
    rw [getD_replicate_zero] at hpos
    exact absurd hpos (lt_irrefl 0)
  · by_contra hge
    push_neg at hge
    rcases Nat.lt_or_ge j (partNumber * partLen + partLen + q * partLen) with hj | hj
    · rw [List.getD_append _ _ _ _ (by
          simp only [List.length_append, List.length_replicate, hBlen]
          omega)] at hpos
      rw [List.getD_append_right _ _ _ _ (by
          simp only [List.length_append, List.length_replicate, hBlen]
          omega)] at hpos
      rw [getD_replicate_zero] at hpos
      exact absurd hpos (lt_irrefl 0)
    · rw [List.getD_append_right _ _ _ _ (by
          simp only [List.length_append, List.length_replicate, hBlen]
          omega)] at hpos
      rw [getD_replicate_zero] at hpos
      exact absurd hpos (lt_irrefl 0)

lemma extractLast_pos_zone (novelty : List ℚ) (partLen parts : ℕ)
    (hplen : parts * partLen ≤ novelty.length) :
    ∀ j, 0 < (extractLastPartFromNovelty novelty partLen parts
        (novelty.length - parts * partLen)).getD j 0 →
      parts * partLen ≤ j ∧ j < novelty.length := by
  intro j hpos
  rw [extractLastPartFromNovelty,
    show novelty.length - (novelty.length - parts * partLen) = parts * partLen from by omega]
      at hpos
  have hDlen : (novelty.drop (parts * partLen)).length
      = novelty.length - parts * partLen := List.length_drop _ _
  constructor
  · by_contra hlt
    push_neg at hlt
    rw [List.getD_append _ _ _ _ (by simp only [List.length_replicate]; omega)] at hpos
    rw [getD_replicate_zero] at hpos
    exact absurd hpos (lt_irrefl 0)
  · by_contra hge
    push_neg at hge
    have hrep : (List.replicate (parts * partLen) (0 : ℚ)).length ≤ j := by
      simp only [List.length_replicate]
      omega
    rw [List.getD_append_right _ _ _ _ hrep] at hpos
    rw [List.getD_eq_default _ _ (by
        simp only [List.length_replicate, hDlen]
        omega)] at hpos
    exact absurd hpos (lt_irrefl 0)

lemma flatMap_parts_good (novelty : List ℚ) (partLen parts lastPartLen target : ℕ)
    (minDelta : ℚ) (fuel : ℕ)
    (hnn : ∀ x ∈ novelty, 0 ≤ x)
    (hplen : parts * partLen ≤ novelty.length) :
    ∀ k, k ≤ parts →
      ((List.range k).flatMap (fun i =>
        peakPickFromPart (extractPartFromNovelty novelty partLen i parts lastPartLen)
          100 target minDelta fuel)).Pairwise (· < ·) ∧
      (∀ a ∈ (List.range k).flatMap (fun i =>
        peakPickFromPart (extractPartFromNovelty novelty partLen i parts lastPartLen)
          100 target minDelta fuel), a < k * partLen) := by
  intro k
  induction k with
  | zero => intro _; simp
  | succ k ih =>
      intro hk
      obtain ⟨ih1, ih2⟩ := ih (by omega)
      have hgood := peakPickFromPart_good
        (extractPartFromNovelty novelty partLen k parts lastPartLen) target minDelta fuel
        (extractPart_nonneg novelty partLen k parts lastPartLen hnn)
      have hzone : ∀ a ∈ peakPickFromPart
          (extractPartFromNovelty novelty partLen k parts lastPartLen) 100 target minDelta fuel,
          k * partLen ≤ a ∧ a < k * partLen + partLen := by
        intro a ha
        exact extractPart_pos_zone novelty partLen k parts lastPartLen hplen (by omega) a
          (hgood.2 a ha).2
      have hsplit : (List.range (k + 1)).flatMap (fun i =>
          peakPickFromPart (extractPartFromNovelty novelty partLen i parts lastPartLen)
            100 target minDelta fuel)
          = (List.range k).flatMap (fun i =>
            peakPickFromPart (extractPartFromNovelty novelty partLen i parts lastPartLen)
              100 target minDelta fuel)
            ++ peakPickFromPart (extractPartFromNovelty novelty partLen k parts lastPartLen)
              100 target minDelta fuel := by
        rw [List.range_succ, List.flatMap_append]
        simp
      rw [hsplit]
      constructor
      · rw [List.pairwise_append]
        refine ⟨ih1, hgood.1, ?_⟩
        intro a ha b hb
        have h1 := ih2 a ha
        have h2 := (hzone b hb).1
        omega
      · intro a ha
        rcases List.mem_append.mp ha with h | h
        · have := ih2 a h
          have : k * partLen ≤ (k + 1) * partLen := by
            rw [Nat.succ_mul]
            omega
          omega
        · have := (hzone a h).2
          rw [Nat.succ_mul]
          omega

lemma peakPick_eq (novelty : List ℚ) (duration : ℚ) (minPeaks pls : ℕ)
    (minDelta : ℚ) (fuel : ℕ) :
    peakPick novelty duration minPeaks pls minDelta fuel
      = if pls = 0 then none
        else if (pyInt (duration / (pls : ℚ))).toNat = 0 then none
        else if novelty.length
            - (pyInt (duration / (pls : ℚ))).toNat
              * (novelty.length / (pyInt (duration / (pls : ℚ))).toNat) = 0 then
          some ((List.range (pyInt (duration / (pls : ℚ))).toNat).flatMap (fun i =>
            peakPickFromPart
              (extractPartFromNovelty novelty
                (novelty.length / (pyInt (duration / (pls : ℚ))).toNat) i
                (pyInt (duration / (pls : ℚ))).toNat
                (novelty.length - (pyInt (duration / (pls : ℚ))).toNat
                  * (novelty.length / (pyInt (duration / (pls : ℚ))).toNat)))
              100 (minPeaks / (pyInt (duration / (pls : ℚ))).toNat) minDelta fuel))
        else
          some (((List.range (pyInt (duration / (pls : ℚ))).toNat).flatMap (fun i =>
            peakPickFromPart
              (extractPartFromNovelty novelty
                (novelty.length / (pyInt (duration / (pls : ℚ))).toNat) i
                (pyInt (duration / (pls : ℚ))).toNat
                (novelty.length - (pyInt (duration / (pls : ℚ))).toNat
                  * (novelty.length / (pyInt (duration / (pls : ℚ))).toNat)))
              100 (minPeaks / (pyInt (duration / (pls : ℚ))).toNat) minDelta fuel))
            ++ peakPickFromPart
              (extractLastPartFromNovelty novelty
                (novelty.length / (pyInt (duration / (pls : ℚ))).toNat)
                (pyInt (duration / (pls : ℚ))).toNat
                (novelty.length - (pyInt (duration / (pls : ℚ))).toNat
                  * (novelty.length / (pyInt (duration / (pls : ℚ))).toNat)))
              100
              (pyInt ((minPeaks : ℚ) / (duration /
                ((novelty.length - (pyInt (duration / (pls : ℚ))).toNat
                  * (novelty.length / (pyInt (duration / (pls : ℚ))).toNat) : ℕ) : ℚ)))).toNat
              minDelta fuel) := rfl

lemma peakPick_some_good (novelty : List ℚ) (duration : ℚ) (minPeaks pls : ℕ)
    (minDelta : ℚ) (fuel : ℕ) (peaks : List ℕ)
    (hnn : ∀ x ∈ novelty, 0 ≤ x)
    (hres : peakPick novelty duration minPeaks pls minDelta fuel = some peaks) :
    peaks.Pairwise (· < ·) ∧ ∀ a ∈ peaks, a < novelty.length := by
  rw [peakPick_eq] at hres
  split at hres
  · exact absurd hres (by simp)
  · set parts := (pyInt (duration / (pls : ℚ))).toNat with hparts
    split at hres
    · exact absurd hres (by simp)
    · rename_i hpartsne
      set partLen := novelty.length / parts with hpartLen
      have hplen : parts * partLen ≤ novelty.length := by
        rw [hpartLen, Nat.mul_comm]
        exact Nat.div_mul_le_self _ _
      have hmain := flatMap_parts_good novelty partLen parts
        (novelty.length - parts * partLen) (minPeaks / parts) minDelta fuel hnn hplen
        parts (le_refl parts)
      split at hres
      · have hpeaks := Option.some.inj hres
        subst hpeaks
        refine ⟨hmain.1, ?_⟩
        intro a ha
        have := hmain.2 a ha
        omega
      · have hpeaks := Option.some.inj hres
        subst hpeaks
        have hlast := peakPickFromPart_good
          (extractLastPartFromNovelty novelty partLen parts (novelty.length - parts * partLen))
          (pyInt ((minPeaks : ℚ)
            / (duration / ((novelty.length - parts * partLen : ℕ) : ℚ)))).toNat minDelta fuel
          (extractLast_nonneg novelty partLen parts _ hnn)
        have hlzone : ∀ a ∈ peakPickFromPart
            (extractLastPartFromNovelty novelty partLen parts (novelty.length - parts * partLen))
            100 (pyInt ((minPeaks : ℚ)
              / (duration / ((novelty.length - parts * partLen : ℕ) : ℚ)))).toNat minDelta fuel,
            parts * partLen ≤ a ∧ a < novelty.length := by
          intro a ha
          exact extractLast_pos_zone novelty partLen parts hplen a (hlast.2 a ha).2
        constructor
        · rw [List.pairwise_append]
          refine ⟨hmain.1, hlast.1, ?_⟩
          intro a ha b hb
          have h1 := hmain.2 a ha
          have h2 := (hlzone b hb).1
          omega
        · intro a ha
          rcases List.mem_append.mp ha with h | h
          · have := hmain.2 a h
            omega
          · exact (hlzone a h).2

/-- **C6**: for every valid novelty signal (non-negative entries, duration
covering the frame span), every peak-count target and every threshold floor,
the onset-candidate times produced by `peak_pick` (frame indices mapped to
seconds by `frame * hop_length / sampling_rate`) are strictly increasing and
lie within `[0, duration]`.  Per-part peaks are strictly ascending, masked
parts confine each segment's peaks to disjoint ascending frame ranges, and
concatenation in part order preserves global strict order. -/
theorem peak_pick_times_strictly_increasing (novelty : List ℚ) (duration : ℚ)
    (minPeaks pls : ℕ) (minDelta : ℚ) (fuel : ℕ) (sr hop : ℕ) (peaks : List ℕ)
    (hnn : ∀ x ∈ novelty, 0 ≤ x) (hsr : 1 ≤ sr) (hhop : 1 ≤ hop)
    (hdur : (((novelty.length - 1 : ℕ) : ℚ)) * (hop : ℚ) / (sr : ℚ) ≤ duration)
    (hres : peakPick novelty duration minPeaks pls minDelta fuel = some peaks) :
    (peaks.map (fun n : ℕ => (n : ℚ) * (hop : ℚ) / (sr : ℚ))).Pairwise (· < ·) ∧
    ∀ t ∈ peaks.map (fun n : ℕ => (n : ℚ) * (hop : ℚ) / (sr : ℚ)), 0 ≤ t ∧ t ≤ duration := by
  obtain ⟨hpw, hbnd⟩ := peakPick_some_good novelty duration minPeaks pls minDelta fuel peaks hnn hres
  have hsrq : (0 : ℚ) < (sr : ℚ) := by exact_mod_cast Nat.pos_of_ne_zero (by omega)
  have hhopq : (0 : ℚ) < (hop : ℚ) := by exact_mod_cast Nat.pos_of_ne_zero (by omega)
  constructor
  · refine List.Pairwise.map _ ?_ hpw
    intro a b hab
    have hq : (a : ℚ) < (b : ℚ) := by exact_mod_cast hab
    have h1 : (a : ℚ) * (hop : ℚ) < (b : ℚ) * (hop : ℚ) :=
      mul_lt_mul_of_pos_right hq hhopq
    exact (div_lt_div_iff_of_pos_right hsrq).mpr h1
  · intro t ht
    rcases List.mem_map.mp ht with ⟨n, hn, hteq⟩
    rw [← hteq]
    constructor
    · positivity
    · have hlt := hbnd n hn
      have hle : (n : ℚ) ≤ (((novelty.length - 1 : ℕ) : ℚ)) := by
        exact_mod_cast Nat.le_sub_one_of_lt hlt
      calc (n : ℚ) * (hop : ℚ) / (sr : ℚ)
          ≤ (((novelty.length - 1 : ℕ) : ℚ)) * (hop : ℚ) / (sr : ℚ) :=
            (div_le_div_iff_of_pos_right hsrq).mpr
              (mul_le_mul_of_nonneg_right hle (le_of_lt hhopq))
        _ ≤ duration := hdur

/-- Witness for C6: the empty novelty signal over 20 seconds, 10-second parts,
sampling rate 1 and hop 1 produces `some []`, trivially satisfying both
conclusions. -/
theorem peak_pick_times_strictly_increasing_witness :
    peakPick [] 20 0 10 (1/1000) 3 = some [] ∧
    (([] : List ℕ).map (fun n : ℕ => (n : ℚ) * ((1 : ℕ) : ℚ) / ((1 : ℕ) : ℚ))).Pairwise (· < ·) := by
  have hres : peakPick ([] : List ℚ) 20 0 10 (1/1000) 3 = some [] := by
    norm_num [peakPick, pyInt, peakPickFromPart, peakPickFromPartLoop, libPeakPick,
      extractPartFromNovelty, List.range_succ]
  exact ⟨hres,
    (peak_pick_times_strictly_increasing [] 20 0 10 (1/1000) 3 1 1 []
      (by simp) (by norm_num) (by norm_num) (by norm_num) hres).1⟩

/-- **C10**: `peak_pick` divides by zero exactly on short durations.  For a
positive part length: when `0 < duration < part_len_seconds` the computed
number of parts is 0 and the `part_len = int(len(novelty)/parts)` division
raises (modelled by `none`); when `duration ≥ part_len_seconds` every division
in `peak_pick` has a nonzero divisor and a result is returned. -/
theorem peak_pick_division_totality (novelty : List ℚ) (duration : ℚ)
    (minPeaks partLenSeconds : ℕ) (minDelta : ℚ) (fuel : ℕ)
    (hpls : 1 ≤ partLenSeconds) :
    (0 < duration → duration < (partLenSeconds : ℚ) →
      (pyInt (duration / (partLenSeconds : ℚ))).toNat = 0 ∧
      peakPick novelty duration minPeaks partLenSeconds minDelta fuel = none) ∧
    ((partLenSeconds : ℚ) ≤ duration →
      ∃ r, peakPick novelty duration minPeaks partLenSeconds minDelta fuel = some r) := by
  have hp0 : (0 : ℚ) < (partLenSeconds : ℚ) := by exact_mod_cast Nat.pos_of_ne_zero (by omega)
  have hne : partLenSeconds ≠ 0 := by omega
  constructor
  · intro hd0 hdlt
    have hq : duration / (partLenSeconds : ℚ) < 1 := (div_lt_one hp0).mpr hdlt
    have hq0 : 0 ≤ duration / (partLenSeconds : ℚ) := by positivity
    have hfloor : ⌊duration / (partLenSeconds : ℚ)⌋ = 0 := by
      rw [Int.floor_eq_zero_iff]
      constructor
      · exact hq0
      · exact hq
    have hparts : (pyInt (duration / (partLenSeconds : ℚ))).toNat = 0 := by
      rw [pyInt, if_neg (not_lt.mpr hq0), hfloor]
      rfl
    refine ⟨hparts, ?_⟩
    rw [peakPick, if_neg hne]
    simp only [hparts, if_pos]
  · intro hdge
    have hq : (1 : ℚ) ≤ duration / (partLenSeconds : ℚ) := (le_div_iff₀ hp0).mpr (by linarith)
    have hq0 : 0 ≤ duration / (partLenSeconds : ℚ) := by linarith
    have hfloor : 1 ≤ ⌊duration / (partLenSeconds : ℚ)⌋ := by
      rw [Int.le_floor]
      exact_mod_cast hq
    have hparts : 1 ≤ (pyInt (duration / (partLenSeconds : ℚ))).toNat := by
      rw [pyInt, if_neg (not_lt.mpr hq0)]
      omega
    rw [peakPick, if_neg hne]
    rw [if_neg (by omega)]
    dsimp only
    split
    · exact ⟨_, rfl⟩
    · exact ⟨_, rfl⟩

/-- Witness for C10 at a concrete input: both the failing short duration
(5 < 10) and the succeeding long duration (20 ≥ 10). -/
theorem peak_pick_division_totality_witness :
    peakPick [1, 2] 5 0 10 (1/1000) 3 = none ∧
    (peakPick [1, 2] 20 0 10 (1/1000) 3).isSome = true := by
  refine ⟨((peak_pick_division_totality [1, 2] 5 0 10 (1/1000) 3 (by norm_num)).1
    (by norm_num) (by norm_num)).2, ?_⟩
  obtain ⟨r, hr⟩ :=
    (peak_pick_division_totality [1, 2] 20 0 10 (1/1000) 3 (by norm_num)).2 (by norm_num)
  rw [hr]
  rfl

/-- Embedding of the shared per-peak beat scan of
`RhythmTracker._calculate_score` and `_find_rhythmic_onsets_parts`
(rhythm_tracker.py): `while distance > period_ms`, advance the beat index,
breaking (with the last distance) when the index runs off the end of
`beat_times`. -/
def beatAdvance (beats : List ℚ) (periodMs p : ℚ) : ℕ → ℕ → ℤ → ℕ × ℤ
  | 0, bi, d => (bi, d)
  | fuel + 1, bi, d =>
      if (d : ℚ) > periodMs then
        if bi + 1 ≥ beats.length then (bi + 1, d)
        else beatAdvance beats periodMs p fuel (bi + 1) (pyInt (p - beats.getD (bi + 1) 0 * 1000))
      else (bi, d)

/-- The beat lookup `b = self.beat_times[beat_index]` followed by the advance
loop; `none` models the Python `IndexError` when `beat_index` is already past
the end of `beat_times`. -/
def peakBeatDistance (beats : List ℚ) (periodMs p : ℚ) (bi : ℕ) : Option (ℕ × ℤ) :=
  if bi < beats.length then
    some (beatAdvance beats periodMs p beats.length bi (pyInt (p - beats.getD bi 0 * 1000)))
  else none

/-- The integer range `range(int(distance - tolerance), int(distance + tolerance))`. -/
def tolRange (d tol : ℤ) : List ℤ :=
  (List.range (2 * tol).toNat).map (fun k : ℕ => d - tol + (k : ℤ))

/-- Embedding of the peak loop of `RhythmTracker._calculate_score`
(rhythm_tracker.py), collecting every histogram bucket increment
`j mod int(period*1000)`; `none` models an `IndexError` on `beat_times` or a
`ZeroDivisionError` when `int(period*1000) = 0`.  `p >= end_time_ms` returns
early, dropping all later peaks. -/
def calcScoreAux (beats : List ℚ) (tol : ℤ) (period : ℚ) (startMs endMs : ℚ) :
    List ℚ → ℕ → List ℤ → Option (List ℤ)
  | [], _, acc => some acc
  | pt :: rest, bi, acc =>
      if pt * 1000 < startMs then calcScoreAux beats tol period startMs endMs rest bi acc
      else if pt * 1000 ≥ endMs then some acc
      else
        match peakBeatDistance beats (period * 1000) (pt * 1000) bi with
        | none => none
        | some r =>
            if pyInt (period * 1000) = 0 then none
            else calcScoreAux beats tol period startMs endMs rest r.1
              (acc ++ (tolRange r.2 tol).map (fun j => j % pyInt (period * 1000)))

/-- Collapse consecutive duplicates of a sorted list, leaving each key once. -/
def collapseDups : List ℤ → List ℤ
  | [] => []
  | [x] => [x]
  | x :: y :: rest => if x = y then collapseDups (y :: rest) else x :: collapseDups (y :: rest)

/-- The final `dict(sorted(score.items()))` of `_calculate_score`: buckets as
an association list sorted by key, each key mapped to its hit count. -/
def toSortedCounts (js : List ℤ) : List (ℤ × ℚ) :=
  (collapseDups (js.insertionSort (· ≤ ·))).map
    (fun k => (k, (js.countP (fun x => decide (x = k)) : ℚ)))

/-- Embedding of `RhythmTracker._calculate_score(start_time_ms, end_time_ms)`. -/
def calcScore (peaks beats : List ℚ) (tol : ℤ) (period : ℚ) (startMs endMs : ℚ) :
    Option (List (ℤ × ℚ)) :=
  (calcScoreAux beats tol period startMs endMs peaks 0 []).map toSortedCounts

/-- In-place value update of the score dict (keys unchanged). -/
def updateValue (m : List (ℤ × ℚ)) (k : ℤ) (v : ℚ) : List (ℤ × ℚ) :=
  m.map (fun e => if e.1 = k then (k, v) else e)

/-- Key lookup in the score dict modelled with a decidable-equality search. -/
def lookupScore (m : List (ℤ × ℚ)) (k : ℤ) : Option ℚ :=
  (m.find? (fun e => decide (e.1 = k))).map Prod.snd

/-- Embedding of one pass of the `for time, s in scores.items()` loop of
`RhythmTracker._average_score`: add the current values of every other
in-window, in-range key to `scores[time]` and divide by the number of
contributors. -/
def averageScoreStep (tol : ℤ) (durMs : ℚ) (m : List (ℤ × ℚ)) (time : ℤ) : List (ℤ × ℚ) :=
  let js := (tolRange time tol).filter
    (fun j : ℤ => decide (0 ≤ j) && decide ((j : ℚ) ≤ durMs) && decide (j ≠ time)
      && (lookupScore m j).isSome)
  let addSum := (js.map (fun j : ℤ => ((lookupScore m j).getD 0))).foldl (· + ·) 0
  updateValue m time ((((lookupScore m time).getD 0) + addSum) / (1 + (js.length : ℚ)))

/-- Embedding of `RhythmTracker._average_score(scores)` (rhythm_tracker.py):
the keys are iterated in dict (sorted) order while the values are mutated in
place, so earlier keys contribute their already-averaged values to later
ones. -/
def averageScore (tol : ℤ) (durMs : ℚ) (m : List (ℤ × ℚ)) : List (ℤ × ℚ) :=
  (m.map Prod.fst).foldl (averageScoreStep tol durMs) m

/-- Python `max(score.items(), key=lambda k: k[1])`: the first item with the
maximal value (`max` keeps the earliest maximum). -/
def pickMax (m : List (ℤ × ℚ)) : ℤ × ℚ :=
  match m with
  | [] => (0, 0)
  | e :: rest => rest.foldl (fun best c => if c.2 > best.2 then c else best) e

/-- Embedding of the suppression step of `_dominant_time_shifts`: zero every
existing bucket within `[time - tolerance, time + tolerance)` whose key is
inside `[0, duration*1000]`. -/
def suppress (tol : ℤ) (durMs : ℚ) (m : List (ℤ × ℚ)) (time : ℤ) : List (ℤ × ℚ) :=
  m.map (fun e =>
    if time - tol ≤ e.1 ∧ e.1 < time + tol ∧ 0 ≤ e.1 ∧ (e.1 : ℚ) ≤ durMs
    then (e.1, 0) else e)

/-- Embedding of the `for i in range(4)` extraction loop of
`_dominant_time_shifts`: take the maximum item, record it and suppress its
neighbourhood — four times, whatever the remaining scores. -/
def extractShifts (tol : ℤ) (durMs : ℚ) : ℕ → List (ℤ × ℚ) → List (ℤ × ℚ) → List (ℤ × ℚ)
  | 0, _, acc => acc
  | n + 1, m, acc =>
      extractShifts tol durMs n (suppress tol durMs m (pickMax m).1) (acc ++ [pickMax m])

/-- Embedding of `RhythmTracker._dominant_time_shifts(start_time_ms,
end_time_ms)` (rhythm_tracker.py). -/
def dominantTimeShifts (peaks beats : List ℚ) (tol : ℤ) (period dur : ℚ)
    (startMs endMs : ℚ) : Option (List (ℤ × ℚ)) :=
  match calcScore peaks beats tol period startMs endMs with
  | none => none
  | some m0 =>
      if averageScore tol (dur * 1000) m0 = [] then some []
      else some (extractShifts tol (dur * 1000) 4 (averageScore tol (dur * 1000) m0) [])

/-- Embedding of the peak loop of `RhythmTracker._find_rhythmic_onsets_parts`
(rhythm_tracker.py): an in-window onset is appended once for every integer
millisecond `j` of its tolerance window that is contained in `shifts_ms`. -/
def findRhythmicAux (beats : List ℚ) (shiftsMs : List ℤ) (tol : ℤ) (period : ℚ)
    (startMs endMs : ℚ) : List ℚ → ℕ → List ℚ → Option (List ℚ)
  | [], _, acc => some acc
  | pt :: rest, bi, acc =>
      if pt * 1000 < startMs then findRhythmicAux beats shiftsMs tol period startMs endMs rest bi acc
      else if pt * 1000 ≥ endMs then some acc
      else
        match peakBeatDistance beats (period * 1000) (pt * 1000) bi with
        | none => none
        | some r =>
            findRhythmicAux beats shiftsMs tol period startMs endMs rest r.1
              (acc ++ ((tolRange r.2 tol).filter (fun j => decide (j ∈ shiftsMs))).map
                (fun _ => pt))

/-- Embedding of `RhythmTracker._find_rhythmic_onsets_parts`. -/
def findRhythmicOnsetsInPart (peaks beats : List ℚ) (tol : ℤ) (period dur : ℚ)
    (startMs endMs : ℚ) : Option (List ℚ) :=
  match dominantTimeShifts peaks beats tol period dur startMs endMs with
  | none => none
  | some shifts =>
      findRhythmicAux beats (shifts.map Prod.fst) tol period startMs endMs peaks 0 []

/-- Embedding of `EqualPartsRhythmTracker.find_rhythmic_onsets` (parts.py):
process `int(duration // part_len)` equal windows, then a final window from
the last boundary to `duration`; results are concatenated.  `none` models a
Python error in any part (or `part_len = 0`). -/
def findRhythmicOnsetsEqualParts (peaks beats : List ℚ) (tol : ℤ) (period dur : ℚ)
    (partLen : ℕ) : Option (List ℚ) :=
  if partLen = 0 then none
  else
    match (List.range (⌊dur / (partLen : ℚ)⌋).toNat).foldl
      (fun (acc : Option (List ℚ)) (i : ℕ) =>
        match acc with
        | none => none
        | some l =>
            match findRhythmicOnsetsInPart peaks beats tol period dur
              (((i : ℚ) * partLen) * 1000) ((((i : ℚ) + 1) * partLen) * 1000) with
            | none => none
            | some r => some (l ++ r))
      (some []) with
    | none => none
    | some l =>
        match findRhythmicOnsetsInPart peaks beats tol period dur
          (((⌊dur / (partLen : ℚ)⌋ : ℤ) : ℚ) * partLen * 1000) (dur * 1000) with
        | none => none
        | some r => some (l ++ r)

/-- Witness for the amended C4: candidate 100 is a representative, candidate
105 is within similarity 5 of it, and both end up in the (single) group keyed
100, whose members are 100 and 105. -/
theorem group_similar_bpms_amended_witness :
    (100 : ℚ) ∈ ([100, 105] : List ℚ) ∧ (105 : ℚ) ∈ ([100, 105] : List ℚ) := by
  obtain ⟨g, hg, hk, h100, h105⟩ := group_similar_bpms_amended 5 [100] [] 105 100
    (by norm_num [groupSimilarBpms, groupStep]) (by norm_num)
  have heval : groupSimilarBpms 5 ([100] ++ 105 :: []) = [(100, [100, 105])] := by
    norm_num [groupSimilarBpms, groupStep]
  rw [heval] at hg
  have hgeq : g = (100, [100, 105]) := by simpa using hg
  rw [hgeq] at h100 h105
  exact ⟨h100, h105⟩

/-- **C5**: the claim fails.  With one onset 5 ms after the single beat,
tolerance 1 ms, tempo 60 BPM and the window `[0 ms, 10000 ms)`, the smoothed
histogram is `{4: 1, 5: 1}`; suppression zeroes buckets but never removes
them, so the four extraction rounds return offsets `4, 5, 4, 4`: offsets 4 and
5 are exactly `tolerance` apart, offset 4 repeats at distance 0, and 4 shifts
are returned even though the histogram was exhausted after two rounds. -/
lemma dominant_shifts_eval :
    dominantTimeShifts [1/200] [0] 1 1 10 0 10000
      = some [(4, 1), (5, 1), (4, 0), (4, 0)] := by
  norm_num [dominantTimeShifts, calcScore, calcScoreAux, peakBeatDistance, beatAdvance,
    pyInt, tolRange, toSortedCounts,
    List.countP, List.countP.go, collapseDups, List.insertionSort, List.orderedInsert,
    lookupScore, List.find?, averageScore, averageScoreStep, updateValue,
    extractShifts, pickMax, suppress, List.foldl, List.cons_ne_nil, ne_eq, List.replicate,
    show (2:ℤ).toNat = 2 from rfl, show (0:ℤ).toNat = 0 from rfl,
    show List.range 2 = [0, 1] from rfl, show List.range 0 = [] from rfl]

theorem dominant_time_shifts_counterexample :
    dominantTimeShifts [1/200] [0] 1 1 10 0 10000
      = some [(4, 1), (5, 1), (4, 0), (4, 0)] ∧
    ([(4, 1), (5, 1), (4, 0), (4, 0)] : List (ℤ × ℚ)).map Prod.fst = [4, 5, 4, 4] ∧
    ¬ (([4, 5, 4, 4] : List ℤ).Pairwise (fun a b => 1 < |a - b|)) ∧
    ([(4, 1), (5, 1), (4, 0), (4, 0)] : List (ℤ × ℚ)).length = 4 :=
  ⟨dominant_shifts_eval, by norm_num, by decide, rfl⟩

lemma extractShifts_length (tol : ℤ) (durMs : ℚ) :
    ∀ (n : ℕ) (m : List (ℤ × ℚ)) (acc : List (ℤ × ℚ)),
      (extractShifts tol durMs n m acc).length = acc.length + n := by
  intro n
  induction n with
  | zero => intro m acc; rfl
  | succ k ih =>
      intro m acc
      rw [extractShifts, ih]
      simp only [List.length_append, List.length_singleton]
      omega

/-- **C5 amended**: `_dominant_time_shifts` returns exactly 4 offsets whenever
the smoothed histogram is nonempty and 0 offsets when it is empty, never an
intermediate count: suppression zeroes the scores of buckets within
`[t - tolerance, t + tolerance)` (the right endpoint survives, so two offsets
can be exactly `tolerance` apart) but never removes buckets, so exhausted
histograms keep yielding zero-score picks that may repeat earlier offsets. -/
theorem dominant_time_shifts_amended (peaks beats : List ℚ) (tol : ℤ) (period dur : ℚ)
    (startMs endMs : ℚ) (r : List (ℤ × ℚ))
    (hres : dominantTimeShifts peaks beats tol period dur startMs endMs = some r) :
    r.length = 0 ∨ r.length = 4 := by
  rw [dominantTimeShifts] at hres
  split at hres
  · exact absurd hres (by simp)
  · split at hres
    · left
      rw [← Option.some.inj hres]
      rfl
    · right
      rw [← Option.some.inj hres, extractShifts_length]
      rfl

/-- Witness for the amended C5 at the counterexample input: the histogram is
nonempty there and exactly 4 offsets come back. -/
theorem dominant_time_shifts_amended_witness :
    ([(4, 1), (5, 1), (4, 0), (4, 0)] : List (ℤ × ℚ)).length = 0 ∨
    ([(4, 1), (5, 1), (4, 0), (4, 0)] : List (ℤ × ℚ)).length = 4 :=
  dominant_time_shifts_amended [1/200] [0] 1 1 10 0 10000 _ dominant_shifts_eval

/-- **C9**: the claim fails.  At the same concrete input as C5, the dominant
offsets are `[4, 5, 4, 4]` and the single onset at 5 ms has tolerance window
`{4, 5}`; both window milliseconds match a dominant offset, so the onset time
`1/200` is appended twice and the result is not duplicate-free. -/
lemma equal_parts_eval :
    findRhythmicOnsetsEqualParts [1/200] [0] 1 1 10 20 = some [1/200, 1/200] := by
  norm_num [findRhythmicOnsetsEqualParts, findRhythmicOnsetsInPart, findRhythmicAux,
    dominantTimeShifts, calcScore, calcScoreAux, peakBeatDistance, beatAdvance,
    pyInt, tolRange, toSortedCounts,
    List.countP, List.countP.go, collapseDups, List.insertionSort, List.orderedInsert,
    lookupScore, List.find?, averageScore, averageScoreStep, updateValue,
    extractShifts, pickMax, suppress, List.foldl, List.cons_ne_nil, ne_eq, List.replicate,
    show (2:ℤ).toNat = 2 from rfl, show (0:ℤ).toNat = 0 from rfl,
    show List.range 2 = [0, 1] from rfl, show List.range 0 = [] from rfl]

theorem find_rhythmic_onsets_counterexample :
    findRhythmicOnsetsEqualParts [1/200] [0] 1 1 10 20 = some [1/200, 1/200] ∧
    ¬ ([1/200, 1/200] : List ℚ).Nodup :=
  ⟨equal_parts_eval, by simp⟩

lemma findRhythmicAux_subset (beats : List ℚ) (shiftsMs : List ℤ) (tol : ℤ) (period : ℚ)
    (startMs endMs : ℚ) :
    ∀ (plist : List ℚ) (bi : ℕ) (acc l : List ℚ),
      findRhythmicAux beats shiftsMs tol period startMs endMs plist bi acc = some l →
      ∀ x ∈ l, x ∈ acc ∨ x ∈ plist := by
  intro plist
  induction plist with
  | nil =>
      intro bi acc l hres x hx
      rw [findRhythmicAux] at hres
      rw [← Option.some.inj hres] at hx
      exact Or.inl hx
  | cons pt rest ih =>
      intro bi acc l hres x hx
      rw [findRhythmicAux] at hres
      split at hres
      · rcases ih bi acc l hres x hx with h | h
        · exact Or.inl h
        · exact Or.inr (List.mem_cons_of_mem _ h)
      · split at hres
        · rw [← Option.some.inj hres] at hx
          exact Or.inl hx
        · split at hres
          · exact absurd hres (by simp)
          · rcases ih _ _ l hres x hx with h | h
            · rcases List.mem_append.mp h with h1 | h1
              · exact Or.inl h1
              · rcases List.mem_map.mp h1 with ⟨_, _, hpt⟩
                rw [← hpt]
                exact Or.inr (List.mem_cons_self _ _)
            · exact Or.inr (List.mem_cons_of_mem _ h)

lemma findRhythmicOnsetsInPart_subset (peaks beats : List ℚ) (tol : ℤ) (period dur : ℚ)
    (startMs endMs : ℚ) (l : List ℚ)
    (hres : findRhythmicOnsetsInPart peaks beats tol period dur startMs endMs = some l) :
    ∀ x ∈ l, x ∈ peaks := by
  intro x hx
  rw [findRhythmicOnsetsInPart] at hres
  split at hres
  · exact absurd hres (by simp)
  · rename_i shifts heq
    rcases findRhythmicAux_subset beats (shifts.map Prod.fst) tol period startMs endMs
      peaks 0 [] l hres x hx with h | h
    · exact absurd h (by simp)
    · exact h

/-- **C9 amended**: every element returned by
`EqualPartsRhythmTracker.find_rhythmic_onsets` is one of the onset-candidate
times (the subset property holds), but a time may occur more than once: an
onset is appended once for every integer millisecond of its tolerance window
that matches a dominant offset, as the counterexample shows. -/
theorem find_rhythmic_onsets_subset (peaks beats : List ℚ) (tol : ℤ) (period dur : ℚ)
    (partLen : ℕ) (l : List ℚ)
    (hres : findRhythmicOnsetsEqualParts peaks beats tol period dur partLen = some l) :
    ∀ x ∈ l, x ∈ peaks := by
  have hfold : ∀ (idxs : List ℕ) (acc : Option (List ℚ)) (l0 : List ℚ),
      idxs.foldl
        (fun (acc : Option (List ℚ)) (i : ℕ) =>
          match acc with
          | none => none
          | some l =>
              match findRhythmicOnsetsInPart peaks beats tol period dur
                (((i : ℚ) * partLen) * 1000) ((((i : ℚ) + 1) * partLen) * 1000) with
              | none => none
              | some r => some (l ++ r)) acc = some l0 →
      ∀ x ∈ l0, (∃ la, acc = some la ∧ x ∈ la) ∨ x ∈ peaks := by
    intro idxs
    induction idxs with
    | nil =>
        intro acc l0 hacc x hx
        rw [List.foldl_nil] at hacc
        exact Or.inl ⟨l0, hacc, hx⟩
    | cons i rest ih =>
        intro acc l0 hacc x hx
        rw [List.foldl_cons] at hacc
        cases haccv : acc with
        | none =>
            rw [haccv] at hacc
            have hnone : ∀ (rs : List ℕ), rs.foldl
                (fun (acc : Option (List ℚ)) (i : ℕ) =>
                  match acc with
                  | none => none
                  | some l =>
                      match findRhythmicOnsetsInPart peaks beats tol period dur
                        (((i : ℚ) * partLen) * 1000) ((((i : ℚ) + 1) * partLen) * 1000) with
                      | none => none
                      | some r => some (l ++ r)) none = none := by
              intro rs
              induction rs with
              | nil => rfl
              | cons _ _ ihn => rw [List.foldl_cons]; exact ihn
            rw [hnone rest] at hacc
            exact absurd hacc (by simp)
        | some la =>
            rw [haccv] at hacc
            cases hpart : findRhythmicOnsetsInPart peaks beats tol period dur
                (((i : ℚ) * partLen) * 1000) ((((i : ℚ) + 1) * partLen) * 1000) with
            | none =>
                rw [hpart] at hacc
                have hnone : ∀ (rs : List ℕ), rs.foldl
                    (fun (acc : Option (List ℚ)) (i : ℕ) =>
                      match acc with
                      | none => none
                      | some l =>
                          match findRhythmicOnsetsInPart peaks beats tol period dur
                            (((i : ℚ) * partLen) * 1000) ((((i : ℚ) + 1) * partLen) * 1000) with
                          | none => none
                          | some r => some (l ++ r)) none = none := by
                  intro rs
                  induction rs with
                  | nil => rfl
                  | cons _ _ ihn => rw [List.foldl_cons]; exact ihn
                rw [hnone rest] at hacc
                exact absurd hacc (by simp)
            | some r =>
                rw [hpart] at hacc
                rcases ih _ l0 hacc x hx with ⟨lb, hlb, hxlb⟩ | h
                · have : lb = la ++ r := by
                    have := Option.some.inj hlb
                    exact this.symm
                  rw [this] at hxlb
                  rcases List.mem_append.mp hxlb with h1 | h1
                  · exact Or.inl ⟨la, rfl, h1⟩
                  · exact Or.inr (findRhythmicOnsetsInPart_subset peaks beats tol period dur
                      _ _ r hpart x h1)
                · exact Or.inr h
  intro x hx
  rw [findRhythmicOnsetsEqualParts] at hres
  split at hres
  · exact absurd hres (by simp)
  · split at hres
    · exact absurd hres (by simp)
    · rename_i lmain hmain
      split at hres
      · exact absurd hres (by simp)
      · rename_i rlast hlast
        rw [← Option.some.inj hres] at hx
        rcases List.mem_append.mp hx with h | h
        · rcases hfold _ _ _ hmain x h with ⟨la, hla, hxa⟩ | hp
          · have : la = [] := Option.some.inj hla.symm
            rw [this] at hxa
            exact absurd hxa (by simp)
          · exact hp
        · exact findRhythmicOnsetsInPart_subset peaks beats tol period dur _ _ rlast hlast x h

/-- Witness for the amended C9 at the counterexample input: both returned
elements are the onset time `1/200`. -/
theorem find_rhythmic_onsets_subset_witness :
    findRhythmicOnsetsEqualParts [1/200] [0] 1 1 10 20 = some [1/200, 1/200] ∧
    (1/200 : ℚ) ∈ ([1/200] : List ℚ) :=
  ⟨equal_parts_eval,
    find_rhythmic_onsets_subset [1/200] [0] 1 1 10 20 _ equal_parts_eval (1/200) (by simp)⟩

/-- Embedding of `first_order_diff` (math.py): `np.diff`. -/
def firstOrderDiff (x : List ℚ) : List ℚ :=
  (x.zip x.tail).map (fun p => p.2 - p.1)

/-- Numpy slice assignment `a[start:stop] = 0` with Python slice
normalization: a negative index wraps by the length, and both ends clamp to
`[0, len]`; when the normalized start is at or past the normalized stop the
slice is empty and nothing is zeroed. -/
def pySliceZero (xs : List ℚ) (start stop : ℤ) : List ℚ :=
  xs.enum.map (fun p =>
    if (if start < 0 then max ((xs.length : ℤ) + start) 0 else min start (xs.length : ℤ))
          ≤ (p.1 : ℤ)
        ∧ (p.1 : ℤ)
          < (if stop < 0 then max ((xs.length : ℤ) + stop) 0 else min stop (xs.length : ℤ))
    then 0 else p.2)

/-- Embedding of the `for i in range(max_parts)` extraction loop of
`ChorusVerseRhythmTracker.find_song_parts` (chorus_verse.py): take the global
argmax of the |energy-difference| curve, zero the slice
`rmse_diff[peak - sr*10//hop : peak + sr*10//hop]`, append the peak. -/
def findSongPartsLoop (sr hop : ℕ) : ℕ → List ℚ → List ℕ → List ℕ
  | 0, _, acc => acc
  | n + 1, arr, acc =>
      findSongPartsLoop sr hop n
        (pySliceZero arr ((argmaxIdx arr : ℤ) - ((sr * 10 / hop : ℕ) : ℤ))
          ((argmaxIdx arr : ℤ) + ((sr * 10 / hop : ℕ) : ℤ)))
        (acc ++ [argmaxIdx arr])

/-- Embedding of `ChorusVerseRhythmTracker.find_song_parts` from the
`rmse_diff = np.abs(first_order_diff(rmse_segment))` curve onwards
(chorus_verse.py); the segment-level RMSE itself involves a real square root
and is treated as the function's input.  `max_parts = int(duration // 20)`;
the returned transitions start with frame 0 and are mapped to seconds by
`librosa.frames_to_time` (`frame * hop / sr`). -/
def findSongPartsFromDiff (rmseDiff : List ℚ) (duration : ℚ) (sr hop : ℕ) : List ℚ :=
  (findSongPartsLoop sr hop (⌊duration / 20⌋).toNat rmseDiff [0]).map
    (fun f : ℕ => (f : ℚ) * (hop : ℚ) / (sr : ℚ))

set_option maxRecDepth 16000 in
/-- **C8**: the claim fails.  Suppression uses the raw Python slice
`rmse_diff[peak-w : peak+w]`: when the argmax lies in the first `w` frames of
a curve at least `2w` frames long, `peak - w` is negative, wraps to the end of
the array and yields an empty slice — nothing is zeroed and the same frame is
extracted again.  With sampling rate 2, hop 1 (so `w = 20` frames), a
40-frame curve whose only energy change is at frame 2 and duration 40 s
(2 extraction rounds), the returned transitions are `[0 s, 1 s, 1 s]`: the
two extracted boundary candidates coincide instead of being more than 10
seconds apart. -/
theorem find_song_parts_counterexample :
    findSongPartsFromDiff (List.replicate 2 0 ++ 5 :: List.replicate 37 0) 40 2 1
      = [0, 1, 1] ∧
    ¬ ((([0, 1, 1] : List ℚ).drop 1).Pairwise (fun a b => 10 < |a - b|)) := by
  constructor
  · norm_num [findSongPartsFromDiff, findSongPartsLoop, pySliceZero, argmaxIdx,
      List.replicate, List.enum, List.enumFrom, List.foldl,
      show ((⌊(40 : ℚ) / 20⌋).toNat) = 2 from by
        rw [show ⌊(40 : ℚ) / 20⌋ = 2 from by norm_num]
        rfl]
  · intro h
    have h2 := List.pairwise_cons.mp h
    have := h2.1 1 (by simp)
    norm_num at this

/-- The greedy extraction run is well-behaved: every extracted argmax is at
least `w = sr*10//hop` frames from the array start and has a positive value at
extraction time (so suppression always zeroes a real neighbourhood). -/
def GoodRun (sr hop : ℕ) : ℕ → List ℚ → Prop
  | 0, _ => True
  | n + 1, arr =>
      sr * 10 / hop ≤ argmaxIdx arr ∧ 0 < arr.getD (argmaxIdx arr) 0 ∧
      GoodRun sr hop n
        (pySliceZero arr ((argmaxIdx arr : ℤ) - ((sr * 10 / hop : ℕ) : ℤ))
          ((argmaxIdx arr : ℤ) + ((sr * 10 / hop : ℕ) : ℤ)))

lemma getD_pos_lt_length (xs : List ℚ) (j : ℕ) (h : 0 < xs.getD j 0) : j < xs.length := by
  by_contra hge
  push_neg at hge
  rw [List.getD_eq_default _ _ hge] at h
  exact absurd h (lt_irrefl 0)

lemma pySliceZero_length (xs : List ℚ) (start stop : ℤ) :
    (pySliceZero xs start stop).length = xs.length := by
  rw [pySliceZero, List.length_map, List.enum_length]

lemma pySliceZero_getD (xs : List ℚ) (start stop : ℤ) (j : ℕ) :
    (pySliceZero xs start stop).getD j 0
      = if (if start < 0 then max ((xs.length : ℤ) + start) 0 else min start (xs.length : ℤ))
              ≤ (j : ℤ)
            ∧ (j : ℤ)
              < (if stop < 0 then max ((xs.length : ℤ) + stop) 0
                 else min stop (xs.length : ℤ))
            ∧ j < xs.length
        then 0 else xs.getD j 0 := by
  have hmap : ∀ (f : ℕ × ℚ → ℚ) (hj : j < xs.length),
      (xs.enum.map f).getD j 0 = f (j, xs.getD j 0) := by
    intro f hj
    have hj4 : j < (xs.enum.map f).length := by
      rw [List.length_map, List.enum_length]; exact hj
    rw [List.getD_eq_getElem _ _ hj4, List.getElem_map, List.getElem_enum,
      List.getD_eq_getElem _ _ hj]
  rcases Nat.lt_or_ge j xs.length with hj | hj
  · show (xs.enum.map (fun p =>
      if (if start < 0 then max ((xs.length : ℤ) + start) 0 else min start (xs.length : ℤ))
            ≤ (p.1 : ℤ)
          ∧ (p.1 : ℤ)
            < (if stop < 0 then max ((xs.length : ℤ) + stop) 0
               else min stop (xs.length : ℤ))
      then 0 else p.2)).getD j 0 = _
    rw [hmap _ hj]
    by_cases hcond : (if start < 0 then max ((xs.length : ℤ) + start) 0
          else min start (xs.length : ℤ)) ≤ (j : ℤ)
        ∧ (j : ℤ) < (if stop < 0 then max ((xs.length : ℤ) + stop) 0
          else min stop (xs.length : ℤ))
    · rw [if_pos hcond, if_pos ⟨hcond.1, hcond.2, hj⟩]
    · rw [if_neg hcond, if_neg (by rintro ⟨h1, h2, _⟩; exact hcond ⟨h1, h2⟩)]
  · rw [List.getD_eq_default _ _ (by rw [pySliceZero_length]; exact hj),
      List.getD_eq_default _ _ hj]
    rw [if_neg (by rintro ⟨_, _, h3⟩; omega)]

lemma findSongPartsLoop_acc (sr hop : ℕ) :
    ∀ (n : ℕ) (arr : List ℚ) (acc : List ℕ),
      findSongPartsLoop sr hop n arr acc = acc ++ findSongPartsLoop sr hop n arr [] := by
  intro n
  induction n with
  | zero => intro arr acc; exact (List.append_nil acc).symm
  | succ k ih =>
      intro arr acc
      show findSongPartsLoop sr hop k
          (pySliceZero arr ((argmaxIdx arr : ℤ) - ((sr * 10 / hop : ℕ) : ℤ))
            ((argmaxIdx arr : ℤ) + ((sr * 10 / hop : ℕ) : ℤ))) (acc ++ [argmaxIdx arr])
        = acc ++ findSongPartsLoop sr hop k
          (pySliceZero arr ((argmaxIdx arr : ℤ) - ((sr * 10 / hop : ℕ) : ℤ))
            ((argmaxIdx arr : ℤ) + ((sr * 10 / hop : ℕ) : ℤ))) ([] ++ [argmaxIdx arr])
      rw [ih _ (acc ++ [argmaxIdx arr]), ih _ ([] ++ [argmaxIdx arr])]
      simp

lemma findSongPartsLoop_pos (sr hop : ℕ) :
    ∀ (n : ℕ) (arr : List ℚ), GoodRun sr hop n arr →
      ∀ q ∈ findSongPartsLoop sr hop n arr [], 0 < arr.getD q 0 := by
  intro n
  induction n with
  | zero => intro arr _ q hq; simp [findSongPartsLoop] at hq
  | succ k ih =>
      intro arr hrun q hq
      obtain ⟨hw, hpos, hrun2⟩ := hrun
      rw [findSongPartsLoop, findSongPartsLoop_acc] at hq
      rcases List.mem_append.mp hq with h | h
      · have : q = argmaxIdx arr := by simpa using h
        rw [this]
        exact hpos
      · have hq2 := ih _ hrun2 q h
        rw [pySliceZero_getD] at hq2
        by_cases hcond : (if (argmaxIdx arr : ℤ) - ((sr * 10 / hop : ℕ) : ℤ) < 0
              then max ((arr.length : ℤ) + ((argmaxIdx arr : ℤ) - ((sr * 10 / hop : ℕ) : ℤ))) 0
              else min ((argmaxIdx arr : ℤ) - ((sr * 10 / hop : ℕ) : ℤ)) (arr.length : ℤ))
              ≤ (q : ℤ)
            ∧ (q : ℤ) < (if (argmaxIdx arr : ℤ) + ((sr * 10 / hop : ℕ) : ℤ) < 0
              then max ((arr.length : ℤ) + ((argmaxIdx arr : ℤ) + ((sr * 10 / hop : ℕ) : ℤ))) 0
              else min ((argmaxIdx arr : ℤ) + ((sr * 10 / hop : ℕ) : ℤ)) (arr.length : ℤ))
            ∧ q < arr.length
        · rw [if_pos hcond] at hq2
          exact absurd hq2 (lt_irrefl 0)
        · rw [if_neg hcond] at hq2
          exact hq2

/-- **C8 amended**: suppression zeroes `rmse_diff[peak-w : peak+w)` with
`w = sampling_rate*10 // hop_length` under Python slice semantics.  When every
extracted argmax lies at least `w` frames into the curve and is extracted with
a positive value, any two extracted boundary candidates are at least `w`
frames apart — `w` frames is `w*hop/sr ≤ 10` seconds (strictly less when
`sr*10` is not divisible by `hop`), and exactly-`w` separation is possible
since the slice excludes its right endpoint; without those conditions the
suppression slice can be empty (negative wrap) and candidates can repeat, as
the counterexample shows. -/
theorem find_song_parts_amended (sr hop : ℕ) :
    ∀ (n : ℕ) (arr : List ℚ), GoodRun sr hop n arr →
      (findSongPartsLoop sr hop n arr []).Pairwise
        (fun a b : ℕ => ((sr * 10 / hop : ℕ) : ℤ) ≤ |(a : ℤ) - (b : ℤ)|) := by
  intro n
  induction n with
  | zero => intro arr _; simp [findSongPartsLoop]
  | succ k ih =>
      intro arr hrun
      obtain ⟨hw, hpos, hrun2⟩ := hrun
      rw [findSongPartsLoop, findSongPartsLoop_acc]
      rw [List.nil_append, List.singleton_append, List.pairwise_cons]
      constructor
      · intro q hq
        have hq2 := findSongPartsLoop_pos sr hop k _ hrun2 q hq
        have hqlen : q < arr.length := by
          have := getD_pos_lt_length _ _ hq2
          rwa [pySliceZero_length] at this
        have hplen : argmaxIdx arr < arr.length := getD_pos_lt_length _ _ hpos
        rw [pySliceZero_getD] at hq2
        by_cases hcond : (if (argmaxIdx arr : ℤ) - ((sr * 10 / hop : ℕ) : ℤ) < 0
              then max ((arr.length : ℤ) + ((argmaxIdx arr : ℤ) - ((sr * 10 / hop : ℕ) : ℤ))) 0
              else min ((argmaxIdx arr : ℤ) - ((sr * 10 / hop : ℕ) : ℤ)) (arr.length : ℤ))
              ≤ (q : ℤ)
            ∧ (q : ℤ) < (if (argmaxIdx arr : ℤ) + ((sr * 10 / hop : ℕ) : ℤ) < 0
              then max ((arr.length : ℤ) + ((argmaxIdx arr : ℤ) + ((sr * 10 / hop : ℕ) : ℤ))) 0
              else min ((argmaxIdx arr : ℤ) + ((sr * 10 / hop : ℕ) : ℤ)) (arr.length : ℤ))
            ∧ q < arr.length
        · rw [if_pos hcond] at hq2
          exact absurd hq2 (lt_irrefl 0)
        · have hwnn : (0 : ℤ) ≤ ((sr * 10 / hop : ℕ) : ℤ) := Int.ofNat_nonneg _
          have hwle : ((sr * 10 / hop : ℕ) : ℤ) ≤ (argmaxIdx arr : ℤ) := by
            exact_mod_cast hw
          have hqnn : (0 : ℤ) ≤ (q : ℤ) := Int.ofNat_nonneg _
          have hpnn : (0 : ℤ) ≤ (argmaxIdx arr : ℤ) := Int.ofNat_nonneg _
          have hqlt : (q : ℤ) < (arr.length : ℤ) := by exact_mod_cast hqlen
          have hsep : ((sr * 10 / hop : ℕ) : ℤ) ≤ (argmaxIdx arr : ℤ) - (q : ℤ)
              ∨ ((sr * 10 / hop : ℕ) : ℤ) ≤ (q : ℤ) - (argmaxIdx arr : ℤ) := by
            rw [not_and_or, not_and_or] at hcond
            rcases hcond with h1 | h2 | h3
            · rw [if_neg (not_lt.mpr (by linarith))] at h1
              push_neg at h1
              rw [lt_min_iff] at h1
              left
              linarith [h1.1]
            · rw [if_neg (not_lt.mpr (by linarith))] at h2
              push_neg at h2
              rw [min_le_iff] at h2
              rcases h2 with h2a | h2b
              · right
                linarith
              · exact absurd hqlt (not_lt.mpr h2b)
            · exact absurd hqlen h3
          rcases hsep with h | h
          · exact le_abs.mpr (Or.inl h)
          · rw [abs_sub_comm]
            exact le_abs.mpr (Or.inl h)
      · exact ih _ hrun2

set_option maxRecDepth 16000 in
/-- Witness for the amended C8: sampling rate 1, hop 1 (`w = 10`), a 21-frame
curve with changes at frames 10 and 20, two extraction rounds: the run is
well-behaved and the extracted candidates 10 and 20 are exactly 10 frames
apart. -/
theorem find_song_parts_amended_witness :
    GoodRun 1 1 2 (List.replicate 10 0 ++ 5 :: (List.replicate 9 0 ++ [4])) ∧
    (findSongPartsLoop 1 1 2 (List.replicate 10 0 ++ 5 :: (List.replicate 9 0 ++ [4])) []).Pairwise
      (fun a b : ℕ => ((1 * 10 / 1 : ℕ) : ℤ) ≤ |(a : ℤ) - (b : ℤ)|) := by
  have hrun : GoodRun 1 1 2 (List.replicate 10 0 ++ 5 :: (List.replicate 9 0 ++ [4])) := by
    norm_num [GoodRun, argmaxIdx, pySliceZero, List.replicate, List.enum, List.enumFrom,
      List.foldl, List.getD_cons_succ, List.getD_cons_zero]
  exact ⟨hrun, find_song_parts_amended 1 1 2 _ hrun⟩

end RhythmRec
